import Mathlib

/-!
# Fractal renderer: gradient colour mapping, escape-time loop, row partition

A shallow embedding of `src/gradient.hpp` and of the compute engine of `src/main.cpp`.

Floating-point values (`double`, `float`) are embedded as elements of an arbitrary
linearly ordered field `K` with a floor function, so that the same definitions run on `ℚ`
(executable) and can be reasoned about on `ℝ` (where `sqrt` and `log2` exist).
`sf::Uint8` is `Fin 256`.  An `sf::Color` is a record of four `sf::Uint8` channels.

The methods of `Gradient` come in two versions.  The plain ones (`GetColor`, `SetDomain`, ...)
compute in the field without rounding; they describe the program wherever its `double` operations
are exact (comparisons, `x - x`, `0 / x`, `x / x`, products with 0 and 1).  The ones with the
suffix `Fl` round every operation by a function `fl`; with `fl = roundDouble`, the IEEE 754
binary64 rounding on `ℚ`, they compute what the program computes in `double` (overflow to infinity
aside).

Division is the division of the field, with `x / 0 = 0`; the hypotheses of the theorems keep the
divisors that matter away from zero (`high ≠ low`, distinct adjacent positions).  Reading
`m_keys.back()` of an empty key list is undefined and is embedded as `none`.
-/

set_option linter.unusedSectionVars false
set_option linter.unusedVariables false

namespace FractalRenderer

/-! ## Colours -/

/-- An `sf::Color`: four 8-bit channels. -/
structure Color where
  r : Fin 256
  g : Fin 256
  b : Fin 256
  a : Fin 256
deriving DecidableEq, Repr

/-- The constant `sf::Color::White`. -/
def Color.White : Color := ⟨255, 255, 255, 255⟩
/-- The constant `sf::Color::Red`. -/
def Color.Red : Color := ⟨255, 0, 0, 255⟩
/-- The constant `sf::Color::Green`. -/
def Color.Green : Color := ⟨0, 255, 0, 255⟩
/-- The constant `sf::Color::Blue`. -/
def Color.Blue : Color := ⟨0, 0, 255, 255⟩

/-- Names of the four channels of a colour. -/
inductive Channel where
  | r | g | b | a
deriving DecidableEq, Repr

/-- Channel selection. -/
def Color.get (c : Color) : Channel → Fin 256
  | Channel.r => c.r
  | Channel.g => c.g
  | Channel.b => c.b
  | Channel.a => c.a

section Generic

variable {K : Type} [LinearOrderedField K] [FloorRing K]

/-- Conversion of a floating value to an integer: the fractional part is discarded
(rounding toward zero). -/
def truncate (x : K) : ℤ := if 0 ≤ x then ⌊x⌋ else ⌈x⌉

/-- The conversion `static_cast<sf::Uint8>(x)`: truncation, reduced modulo `2^8`. -/
def toUint8 (x : K) : Fin 256 :=
  ⟨(truncate x % 256).toNat, by
    have h1 : 0 ≤ truncate x % 256 := Int.emod_nonneg _ (by decide)
    have h2 : truncate x % 256 < 256 := Int.emod_lt_of_pos _ (by decide)
    omega⟩

/-! ## Gradient (`src/gradient.hpp`) -/

/-- The type `Gradient::GradientKey = std::pair<double, sf::Color>`. -/
abbrev GradientKey (K : Type) := K × Color

/-- The class `Gradient`: `m_keys` and `m_domain` (`x` is the low end, `y` the high end). -/
structure Gradient (K : Type) where
  m_keys : List (GradientKey K)
  m_domain : K × K

/-- A default-constructed `Gradient`: no keys, zero-initialised domain. -/
def Gradient.empty : Gradient K := ⟨[], (0, 0)⟩

/-- The method `Gradient::NormalizeValue`. -/
def NormalizeValue (m_domain : K × K) (value : K) : K :=
  (value - m_domain.1) / (m_domain.2 - m_domain.1)

/-- The method `Gradient::UnnormalizeValue`. -/
def UnnormalizeValue (m_domain : K × K) (value : K) : K :=
  value * (m_domain.2 - m_domain.1) + m_domain.1

/-- The method `Gradient::UnnormalizeAllKeys`. -/
def UnnormalizeAllKeys (g : Gradient K) : Gradient K :=
  { g with m_keys := g.m_keys.map fun key => (UnnormalizeValue g.m_domain key.1, key.2) }

/-- The method `Gradient::NormalizeAllKeys`. -/
def NormalizeAllKeys (g : Gradient K) : Gradient K :=
  { g with m_keys := g.m_keys.map fun key => (NormalizeValue g.m_domain key.1, key.2) }

/-- The scan of `Gradient::AddKey` over `m_keys` (the key is already normalized): insert
before the first stored key whose position is strictly greater, else append. -/
def insertKey (key : GradientKey K) : List (GradientKey K) → List (GradientKey K)
  | [] => [key]
  | k :: ks => if key.1 < k.1 then key :: k :: ks else k :: insertKey key ks

/-- The method `Gradient::AddKey`. -/
def AddKey (g : Gradient K) (key : GradientKey K) : Gradient K :=
  { g with m_keys := insertKey (NormalizeValue g.m_domain key.1, key.2) g.m_keys }

/-- The method `Gradient::SetDomain`, without rounding (`SetDomainFl` rounds the re-keying as
`double` does). -/
def SetDomain (g : Gradient K) (domain : K × K) (normalize : Bool) : Gradient K :=
  if normalize then
    NormalizeAllKeys { UnnormalizeAllKeys g with m_domain := domain }
  else
    { g with m_domain := domain }

/-- One channel of the interpolated colour in `Gradient::GetColor`:
`static_cast<sf::Uint8>((1 - t) * key0.ch + key1.ch * t)`, without rounding before the truncation
(`lerpChannelFl` rounds as `double` does; the two agree at `t = 0`). -/
def lerpChannel (t : K) (ch0 ch1 : Fin 256) : Fin 256 :=
  toUint8 ((1 - t) * ((ch0 : ℕ) : K) + ((ch1 : ℕ) : K) * t)

/-- The interpolated colour built in `Gradient::GetColor`. -/
def lerpColor (t : K) (c0 c1 : Color) : Color :=
  ⟨lerpChannel t c0.r c1.r, lerpChannel t c0.g c1.g, lerpChannel t c0.b c1.b,
   lerpChannel t c0.a c1.a⟩

/-- The loop of `Gradient::GetColor` over the keys not yet visited; `prev` is `m_keys[i - 1]`
(`none` while `i = 0`).  After the loop `m_keys.back().second` is returned, which is undefined on
an empty key list (`none`). -/
def GetColor.scan (value : K) : Option (GradientKey K) → List (GradientKey K) → Option Color
  | prev, [] => prev.map Prod.snd
  | prev, key1 :: rest =>
    if value < key1.1 then
      match prev with
      | none => some key1.2
      | some key0 =>
        some (lerpColor ((value - key0.1) / (key1.1 - key0.1)) key0.2 key1.2)
    else GetColor.scan value (some key1) rest

/-- The method `Gradient::GetColor`. -/
def GetColor (g : Gradient K) (value : K) : Option Color :=
  GetColor.scan ((value - g.m_domain.1) / (g.m_domain.2 - g.m_domain.1)) none g.m_keys

/-- The gradient set up in `main` for an iteration cap `M`, with the key positions taken exactly:
domain `[0, M]`, keys `(0, White)`, `(M/3, Red)`, `(2M/3, Green)`, `(M, Blue)`.  (`mainGradient`
has the positions that `main` stores, rounded in `float` and `double`.) -/
def defaultGradient (M : ℕ) : Gradient K :=
  let g0 := SetDomain (Gradient.empty : Gradient K) (0, (M : K)) true
  let g1 := AddKey g0 (0, Color.White)
  let g2 := AddKey g1 ((M : K) / 3, Color.Red)
  let g3 := AddKey g2 (2 * (M : K) / 3, Color.Green)
  AddKey g3 ((M : K), Color.Blue)

/-- The keys are in ascending order of normalized position (equal positions allowed). -/
def SortedKeys (keys : List (GradientKey K)) : Prop :=
  keys.Pairwise fun k0 k1 => k0.1 ≤ k1.1

instance (keys : List (GradientKey K)) : Decidable (SortedKeys keys) := by
  unfold SortedKeys; infer_instance

/-! ## Compute engine (`src/main.cpp`) -/

/-- The type `complex = sf::Vector2<FType>`: `(x, y)`. -/
abbrev complex (K : Type) := K × K

/-- The function `ComplexModifier`: `z² + c`, with `c` the global `s_C`. -/
def ComplexModifier (s_C : complex K) (z : complex K) : complex K :=
  let z2 : complex K := (z.1 * z.1 - z.2 * z.2, 2 * z.1 * z.2)
  (z2.1 + s_C.1, z2.2 + s_C.2)

/-- The function `LengthSquared`. -/
def LengthSquared (z : complex K) : K := z.1 * z.1 + z.2 * z.2

/-- The function template `map` at `T = FType`. -/
def map (value x0 y0 x1 y1 : K) : K :=
  let p := (value - x0) / (y0 - x0)
  p * (y1 - x1) + x1

/-- The part of `sf::View` that the engine reads: centre and size. -/
structure View (K : Type) where
  center : K × K
  size : K × K

/-- The SFML call `sf::View::reset(sf::FloatRect{left, top, width, height})`: the view is centred
on the rectangle and takes its extent. -/
def View.reset (left top width height : K) : View K :=
  ⟨(left + width / 2, top + height / 2), (width, height)⟩

/-- The fields of `RenderContext` read by the compute engine. -/
structure RenderContext (K : Type) where
  View : View K
  Width : ℕ
  Height : ℕ
  DrawGradient : Gradient K

/-- The globals read by `DrawPixelFunction`. -/
structure Settings (K : Type) where
  s_C : complex K
  s_MaxIterations : ℕ
  s_ApplySmoothing : Bool

/-- The function `ResizeRenderTexture` (the reallocation of `Pixels` is not represented). -/
def ResizeRenderTexture (context : RenderContext K) (width height : ℕ) : RenderContext K :=
  { context with
    Width := width
    Height := height
    View := View.reset 0 0 (width : K) (height : K) }

/-- The iteration loop of `DrawPixelFunction`,
`for (i = 0u; i < s_MaxIterations; ++i) { z = ComplexModifier(z); if (LengthSquared(z) >= 4.f) break; }`.
The first argument is `s_MaxIterations - i`; the result is the final `(i, z)`. -/
def escapeLoop (s_C : complex K) : ℕ → ℕ → complex K → ℕ × complex K
  | 0, i, z => (i, z)
  | remaining + 1, i, z =>
    let z1 := ComplexModifier s_C z
    if 4 ≤ LengthSquared z1 then (i, z1) else escapeLoop s_C remaining (i + 1) z1

/-- The initial `z` of `DrawPixelFunction(x, y, output, context)`. -/
def startPoint (context : RenderContext K) (x y : K) : complex K :=
  let scale : K := 1 / ((context.Height : K) / 2)
  ((y - (context.Height : K) / 2) * scale, (x - (context.Width : K) / 2) * scale)

/-- The value handed to `Gradient::GetColor` by `DrawPixelFunction` for the loop result `(i, z)`.
`sqrt` and `log2` stand for `std::sqrt` and `std::log2`. -/
def gradientValue (sqrt log2 : K → K) (s_ApplySmoothing : Bool) (i : ℕ) (z : complex K) : K :=
  if s_ApplySmoothing then
    let length := sqrt (LengthSquared z)
    (i : K) - log2 (max (log2 length) 1)
  else
    (i : K)

/-- The function `DrawPixelFunction`: the four bytes written to `output[0..3]`.
`sqrt` and `log2` stand for `std::sqrt` and `std::log2`. -/
def DrawPixelFunction (sqrt log2 : K → K) (settings : Settings K) (x y : K)
    (context : RenderContext K) : Option (List (Fin 256)) :=
  let iz := escapeLoop settings.s_C settings.s_MaxIterations 0 (startPoint context x y)
  (GetColor context.DrawGradient
      (gradientValue sqrt log2 settings.s_ApplySmoothing iz.1 iz.2)).map
    fun color => [color.r, color.g, color.b, color.a]

/-- The value `ySliceBegin` of `UpdateRenderContext` for a pool of `numThreads` workers. -/
def ySliceBegin (Height numThreads workerIndex : ℕ) : ℕ :=
  (Height / numThreads) * workerIndex

/-- The value `ySliceEnd` of `UpdateRenderContext` for a pool of `numThreads` workers. -/
def ySliceEnd (Height numThreads workerIndex : ℕ) : ℕ :=
  (Height / numThreads) * (workerIndex + 1)

/-- The constant `s_NumThreads`. -/
def s_NumThreads : ℕ := 16

/-- The pair `(viewX, viewY)` computed by `UpdateRenderContext` for the pixel `(x, y)`. -/
def viewCoords (context : RenderContext K) (x y : ℕ) : K × K :=
  let view := context.View
  let viewLeft := view.center.1 - view.size.1 * (1 / 2)
  let viewTop := view.center.2 - view.size.2 * (1 / 2)
  (map (x : K) 0 (context.Width : K) viewLeft (viewLeft + view.size.1),
   map (y : K) 0 (context.Height : K) viewTop (viewTop + view.size.2))

/-- The `z` that `DrawPixelFunction` starts from for the pixel `(x, y)`: `UpdateRenderContext`
calls `DrawPixelFunction(viewY, viewX, ...)`. -/
def pixelStartPoint (context : RenderContext K) (x y : ℕ) : complex K :=
  startPoint context (viewCoords context x y).2 (viewCoords context x y).1

/-- The function `UpdateRenderContext` for a pool of `numThreads` workers: the writes it performs,
as pairs of the offset `(y * Width + x) * 4` into `Pixels` and the four bytes stored there. -/
def UpdateRenderContext (sqrt log2 : K → K) (settings : Settings K) (numThreads : ℕ)
    (context : RenderContext K) (workerIndex : ℕ) : List (ℕ × Option (List (Fin 256))) :=
  let first := ySliceBegin context.Height numThreads workerIndex
  let last := ySliceEnd context.Height numThreads workerIndex
  (List.range' first (last - first)).flatMap fun y =>
    (List.range context.Width).map fun x =>
      ((y * context.Width + x) * 4,
       DrawPixelFunction sqrt log2 settings (viewCoords context x y).2 (viewCoords context x y).1
         context)

/-- The rows that worker `workerIndex` computes: `ySliceBegin ≤ y < ySliceEnd`. -/
def inSlice (Height numThreads workerIndex y : ℕ) : Prop :=
  ySliceBegin Height numThreads workerIndex ≤ y ∧ y < ySliceEnd Height numThreads workerIndex

instance (Height numThreads workerIndex y : ℕ) :
    Decidable (inSlice Height numThreads workerIndex y) := by
  unfold inSlice; infer_instance

end Generic

/-! ## Frame barrier (`RenderWorker` and the frame loop of `main`) -/

/-- The synchronisation state of one frame cycle: the two semaphore counters, for each worker
whether it is inside `UpdateRenderContext` and how many calls of it it has completed in this
cycle, and the local `numThreadsFinished` of `main`. -/
structure SyncState where
  s_ThreadsReady : ℕ
  s_ThreadsFinished : ℕ
  computing : List Bool
  updates : List ℕ
  numThreadsFinished : ℕ
deriving DecidableEq, Repr

/-- The atomic steps of a frame cycle. -/
inductive SyncEvent where
  /-- In worker `index`, `s_ThreadsReady.try_acquire_for` returns `true`. -/
  | workerAcquire (index : ℕ)
  /-- In worker `index`, `UpdateRenderContext` returns and `s_ThreadsFinished.release()` runs. -/
  | workerRelease (index : ℕ)
  /-- In `main`, `s_ThreadsFinished.acquire()` returns and `++numThreadsFinished` runs. -/
  | mainAcquire
deriving DecidableEq, Repr

/-- The state right after `s_ThreadsReady.release(numThreads)` in `main`, with every worker
waiting in `try_acquire_for`. -/
def cycleStart (numThreads : ℕ) : SyncState :=
  ⟨numThreads, 0, List.replicate numThreads false, List.replicate numThreads 0, 0⟩

/-- One step of the cycle; `none` when the step is not enabled in the state. -/
def syncStep (numThreads : ℕ) (s : SyncState) : SyncEvent → Option SyncState
  | SyncEvent.workerAcquire index =>
    if index < numThreads ∧ s.computing.getD index true = false ∧ 0 < s.s_ThreadsReady then
      some { s with
        s_ThreadsReady := s.s_ThreadsReady - 1
        computing := s.computing.set index true }
    else none
  | SyncEvent.workerRelease index =>
    if index < numThreads ∧ s.computing.getD index false = true then
      some { s with
        s_ThreadsFinished := s.s_ThreadsFinished + 1
        computing := s.computing.set index false
        updates := s.updates.set index (s.updates.getD index 0 + 1) }
    else none
  | SyncEvent.mainAcquire =>
    if s.numThreadsFinished < numThreads ∧ 0 < s.s_ThreadsFinished then
      some { s with
        s_ThreadsFinished := s.s_ThreadsFinished - 1
        numThreadsFinished := s.numThreadsFinished + 1 }
    else none

/-- Running a schedule (a sequence of steps) from a state. -/
def runSchedule (numThreads : ℕ) : SyncState → List SyncEvent → Option SyncState
  | s, [] => some s
  | s, e :: es => (syncStep numThreads s e).bind fun s1 => runSchedule numThreads s1 es

/-- A schedule of one cycle of the 16-worker pool in which worker 0 takes two `ready` permits,
worker 1 takes none, and the workers 2 to 15 take one each; `main` then completes its 16
acquires. -/
def stolenPermitSchedule : List SyncEvent :=
  [SyncEvent.workerAcquire 0, SyncEvent.workerRelease 0,
   SyncEvent.workerAcquire 0, SyncEvent.workerRelease 0] ++
  ((List.range 14).flatMap fun k =>
    [SyncEvent.workerAcquire (k + 2), SyncEvent.workerRelease (k + 2)]) ++
  List.replicate 16 SyncEvent.mainAcquire

/-! ## Rounded arithmetic

The methods of `Gradient` with every arithmetic operation followed by a rounding `fl`, as the
program evaluates them in `double`.  With `fl = id` they are the exact versions above; with
`fl = roundDouble` they are IEEE 754 binary64 arithmetic (round to nearest, ties to even). -/

section Rounded

variable {K : Type} [LinearOrderedField K] [FloorRing K]

/-- The method `Gradient::NormalizeValue`, each operation rounded by `fl`. -/
def NormalizeValueFl (fl : K → K) (m_domain : K × K) (value : K) : K :=
  fl (fl (value - m_domain.1) / fl (m_domain.2 - m_domain.1))

/-- The method `Gradient::UnnormalizeValue`, each operation rounded by `fl`. -/
def UnnormalizeValueFl (fl : K → K) (m_domain : K × K) (value : K) : K :=
  fl (fl (value * fl (m_domain.2 - m_domain.1)) + m_domain.1)

/-- The method `Gradient::AddKey`, each operation rounded by `fl`. -/
def AddKeyFl (fl : K → K) (g : Gradient K) (key : GradientKey K) : Gradient K :=
  { g with m_keys := insertKey (NormalizeValueFl fl g.m_domain key.1, key.2) g.m_keys }

/-- The method `Gradient::SetDomain`, each operation rounded by `fl`: with `normalize`, every key
is unnormalized under the current domain and normalized under the new one. -/
def SetDomainFl (fl : K → K) (g : Gradient K) (domain : K × K) (normalize : Bool) : Gradient K :=
  if normalize then
    { m_keys :=
        (g.m_keys.map fun key => (UnnormalizeValueFl fl g.m_domain key.1, key.2)).map
          fun key => (NormalizeValueFl fl domain key.1, key.2)
      m_domain := domain }
  else
    { g with m_domain := domain }

/-- One channel of the interpolated colour in `Gradient::GetColor`, each operation rounded:
`static_cast<sf::Uint8>((1 - t) * key0.ch + key1.ch * t)` evaluated in `double`. -/
def lerpChannelFl (fl : K → K) (t : K) (ch0 ch1 : Fin 256) : Fin 256 :=
  toUint8 (fl (fl (fl (1 - t) * ((ch0 : ℕ) : K)) + fl (((ch1 : ℕ) : K) * t)))

/-- The interpolated colour built in `Gradient::GetColor`, each operation rounded. -/
def lerpColorFl (fl : K → K) (t : K) (c0 c1 : Color) : Color :=
  ⟨lerpChannelFl fl t c0.r c1.r, lerpChannelFl fl t c0.g c1.g, lerpChannelFl fl t c0.b c1.b,
   lerpChannelFl fl t c0.a c1.a⟩

/-- The loop of `Gradient::GetColor`, each operation rounded; `prev` is `m_keys[i - 1]`
(`none` while `i = 0`). -/
def GetColorFl.scan (fl : K → K) (value : K) :
    Option (GradientKey K) → List (GradientKey K) → Option Color
  | prev, [] => prev.map Prod.snd
  | prev, key1 :: rest =>
    if value < key1.1 then
      match prev with
      | none => some key1.2
      | some key0 =>
        some (lerpColorFl fl (fl (fl (value - key0.1) / fl (key1.1 - key0.1))) key0.2 key1.2)
    else GetColorFl.scan fl value (some key1) rest

/-- The method `Gradient::GetColor`, each operation rounded by `fl`. -/
def GetColorFl (fl : K → K) (g : Gradient K) (value : K) : Option Color :=
  GetColorFl.scan fl (fl (fl (value - g.m_domain.1) / fl (g.m_domain.2 - g.m_domain.1))) none
    g.m_keys

/-- What the interpolation of `GetColor` needs from the rounding: it is monotone, it leaves the
integers up to 255 alone, and on `[-512, 512]` it moves a value by at most `1/1024` (binary32 and
binary64 rounding move it by at most `2 ^ (-15)` and `2 ^ (-44)` there). -/
structure FaithfulRounding (fl : K → K) : Prop where
  mono : ∀ x y : K, x ≤ y → fl x ≤ fl y
  exact_nat : ∀ n : ℕ, n ≤ 255 → fl (n : K) = (n : K)
  error : ∀ x : K, |x| ≤ 512 → |fl x - x| ≤ 1 / 1024

end Rounded

/-! ## IEEE 754 rounding on the rationals -/

/-- The number of binary digits of `n`, computed with `fuel` halving steps. -/
def bitLength : ℕ → ℕ → ℕ
  | 0, _ => 0
  | fuel + 1, n => if n = 0 then 0 else bitLength fuel (n / 2) + 1

/-- The power `2 ^ e` for an integer exponent. -/
def pow2 (e : ℤ) : ℚ :=
  if 0 ≤ e then ((2 ^ e.toNat : ℕ) : ℚ) else 1 / ((2 ^ (-e).toNat : ℕ) : ℚ)

/-- The binary exponent of a non-zero rational: `2 ^ floorLog2 x ≤ |x| < 2 ^ (floorLog2 x + 1)`. -/
def floorLog2 (x : ℚ) : ℤ :=
  if pow2 ((bitLength x.num.natAbs x.num.natAbs : ℤ) - (bitLength x.den x.den : ℤ)) ≤ |x| then
    (bitLength x.num.natAbs x.num.natAbs : ℤ) - (bitLength x.den x.den : ℤ)
  else (bitLength x.num.natAbs x.num.natAbs : ℤ) - (bitLength x.den x.den : ℤ) - 1

/-- Rounding of a rational to the nearest integer, ties to the even one. -/
def roundHalfEven (y : ℚ) : ℤ :=
  if y - (⌊y⌋ : ℚ) < 1 / 2 then ⌊y⌋
  else if 1 / 2 < y - (⌊y⌋ : ℚ) then ⌊y⌋ + 1
  else if ⌊y⌋ % 2 = 0 then ⌊y⌋ else ⌊y⌋ + 1

/-- The exponent of the unit in the last place of `x` in a binary format with `prec` significand
bits whose smallest positive (subnormal) number is `2 ^ emin`. -/
def ulpExponent (prec : ℕ) (emin : ℤ) (x : ℚ) : ℤ :=
  max (floorLog2 x - ((prec : ℤ) - 1)) emin

/-- Rounding to the nearest number of a binary floating-point format, ties to even; the exponent
is not bounded above (no overflow to infinity). -/
def roundBinary (prec : ℕ) (emin : ℤ) (x : ℚ) : ℚ :=
  if x = 0 then 0
  else (roundHalfEven (x / pow2 (ulpExponent prec emin x)) : ℚ) * pow2 (ulpExponent prec emin x)

/-- Rounding to `double` (IEEE 754 binary64). -/
def roundDouble : ℚ → ℚ := roundBinary 53 (-1074)

/-- Rounding to `float` (IEEE 754 binary32). -/
def roundSingle : ℚ → ℚ := roundBinary 24 (-149)

/-- The largest finite `double`, `(2^53 - 1) * 2^971`; up to it in absolute value `roundDouble` is
the rounding of the program. -/
def maxDouble : ℚ := ((2 ^ 1024 - 2 ^ 971 : ℕ) : ℚ)

/-- The gradient set up in `main` (lines 89 to 93) in the arithmetic of the program: the positions
`s_MaxIterations / 3.f` and `2.f * s_MaxIterations / 3.f` are computed in `float`, and `AddKey`
normalizes them in `double`. -/
def mainGradient : Gradient ℚ :=
  AddKeyFl roundDouble
    (AddKeyFl roundDouble
      (AddKeyFl roundDouble
        (AddKeyFl roundDouble (SetDomainFl roundDouble Gradient.empty (0, 100) true)
          (0, Color.White))
        (roundSingle (100 / 3), Color.Red))
      (roundSingle (roundSingle (2 * 100) / 3), Color.Green))
    (100, Color.Blue)

/-! ## Concrete inputs -/

/-- The gradient over `[0, 1]` after `AddKey({0, White})`, `AddKey({1, Red})`,
`AddKey({1, Green})`: two keys share the position 1. -/
def duplicateKeyGradient : Gradient ℚ :=
  AddKey (AddKey (AddKey (SetDomain Gradient.empty (0, 1) true) (0, Color.White))
    (1, Color.Red)) (1, Color.Green)

/-- The gradient over `[0, 100]` after `AddKey({-100, White})` and `AddKey({200, Blue})`: both
keys lie outside the domain (normalized positions `-1` and `2`). -/
def outsideKeyGradient : Gradient ℚ :=
  AddKey (AddKey (SetDomain Gradient.empty (0, 100) true) (-100, Color.White)) (200, Color.Blue)

/-- The gradient over `[0, 1]` after `AddKey({-2^53, White})` and `AddKey({1, Blue})`, in
`double`. -/
def farKeyGradient : Gradient ℚ :=
  AddKeyFl roundDouble
    (AddKeyFl roundDouble (SetDomainFl roundDouble Gradient.empty (0, 1) true)
      (-9007199254740992, Color.White))
    (1, Color.Blue)

/-- A render context before the first `ResizeRenderTexture`: zero size, no keys. -/
def initialContext : RenderContext ℚ :=
  ⟨⟨(0, 0), (0, 0)⟩, 0, 0, Gradient.empty⟩

/-! ## Auxiliary facts -/

section Lemmas

variable {K : Type} [LinearOrderedField K] [FloorRing K]

theorem truncate_natCast (n : ℕ) : truncate ((n : ℕ) : K) = (n : ℤ) := by
  simp [truncate]

theorem toUint8_natCast (n : Fin 256) : toUint8 (((n : ℕ) : K)) = n := by
  apply Fin.ext
  simp only [toUint8, truncate_natCast]
  have := n.isLt
  omega

theorem lerpChannel_zero (ch0 ch1 : Fin 256) : lerpChannel (0 : K) ch0 ch1 = ch0 := by
  simp [lerpChannel, toUint8_natCast]

theorem lerpColor_zero (c0 c1 : Color) : lerpColor (0 : K) c0 c1 = c0 := by
  simp [lerpColor, lerpChannel_zero]

theorem insertKey_perm (key : GradientKey K) (keys : List (GradientKey K)) :
    (insertKey key keys).Perm (key :: keys) := by
  induction keys with
  | nil => simp [insertKey]
  | cons k ks ih =>
    by_cases h : key.1 < k.1
    · simp [insertKey, h]
    · simp only [insertKey, h, if_false]
      exact (ih.cons k).trans (List.Perm.swap key k ks)

theorem insertKey_sorted (key : GradientKey K) (keys : List (GradientKey K))
    (hs : SortedKeys keys) : SortedKeys (insertKey key keys) := by
  induction keys with
  | nil => simp [insertKey, SortedKeys]
  | cons k ks ih =>
    have hk : ∀ x ∈ ks, k.1 ≤ x.1 := (List.pairwise_cons.mp hs).1
    have hks : SortedKeys ks := (List.pairwise_cons.mp hs).2
    by_cases h : key.1 < k.1
    · simp only [insertKey, h, if_true]
      refine List.pairwise_cons.mpr ⟨?_, hs⟩
      intro x hx
      rcases List.mem_cons.mp hx with rfl | hx
      · exact le_of_lt h
      · exact le_trans (le_of_lt h) (hk x hx)
    · simp only [insertKey, h, if_false]
      refine List.pairwise_cons.mpr ⟨?_, ih hks⟩
      intro x hx
      rcases List.mem_cons.mp ((insertKey_perm key ks).mem_iff.mp hx) with rfl | hx
      · exact le_of_not_lt h
      · exact hk x hx

theorem AddKey_domain (g : Gradient K) (key : GradientKey K) :
    (AddKey g key).m_domain = g.m_domain := rfl

theorem foldl_AddKey_sorted (inserts : List (GradientKey K)) (g : Gradient K)
    (hs : SortedKeys g.m_keys) : SortedKeys (inserts.foldl AddKey g).m_keys := by
  induction inserts generalizing g with
  | nil => simpa using hs
  | cons key rest ih =>
    simp only [List.foldl_cons]
    exact ih _ (insertKey_sorted _ _ hs)

/-- The scan of `GetColor` passes over every key whose position is not above the query. -/
theorem scan_skip (value : K) (prev : Option (GradientKey K)) (l₁ : List (GradientKey K))
    (k : GradientKey K) (l₂ : List (GradientKey K))
    (h₁ : ∀ x ∈ l₁, x.1 ≤ value) (hk : k.1 ≤ value) :
    GetColor.scan value prev (l₁ ++ k :: l₂) = GetColor.scan value (some k) l₂ := by
  induction l₁ generalizing prev with
  | nil => simp [GetColor.scan, not_lt.mpr hk]
  | cons x xs ih =>
    have hx : x.1 ≤ value := h₁ x (List.mem_cons_self _ _)
    simp only [List.cons_append, GetColor.scan, not_lt.mpr hx, if_false]
    exact ih _ fun y hy => h₁ y (List.mem_cons_of_mem _ hy)

/-- When no key lies above the query, the scan returns the colour of the last key. -/
theorem scan_all_le (value : K) (keys : List (GradientKey K)) (hne : keys ≠ [])
    (h : ∀ x ∈ keys, x.1 ≤ value) :
    GetColor.scan value none keys = some (keys.getLast hne).2 := by
  have hsplit := List.dropLast_append_getLast hne
  have hlast : (keys.getLast hne).1 ≤ value := h _ (List.getLast_mem hne)
  have hinit : ∀ x ∈ keys.dropLast, x.1 ≤ value :=
    fun x hx => h x (List.mem_of_mem_dropLast hx)
  have := scan_skip value none keys.dropLast (keys.getLast hne) [] hinit hlast
  rw [hsplit] at this
  simpa [GetColor.scan] using this

theorem sorted_le_getLast (keys : List (GradientKey K)) (hne : keys ≠ [])
    (hs : SortedKeys keys) : ∀ x ∈ keys, x.1 ≤ (keys.getLast hne).1 := by
  intro x hx
  have hsplit := List.dropLast_append_getLast hne
  rw [← hsplit] at hx hs
  rcases List.mem_append.mp hx with hx | hx
  · exact (List.pairwise_append.mp hs).2.2 x hx _ (List.mem_singleton_self _)
  · rw [List.mem_singleton.mp hx]

/-- In a sorted key list the keys before an adjacent pair are not above its first position. -/
theorem sorted_adjacent_bounds (pre post : List (GradientKey K)) (k0 k1 : GradientKey K)
    (hs : SortedKeys (pre ++ k0 :: k1 :: post)) :
    (∀ x ∈ pre, x.1 ≤ k0.1) ∧ (∀ x ∈ post, k1.1 ≤ x.1) := by
  have h := List.pairwise_append.mp hs
  refine ⟨fun x hx => h.2.2 x hx k0 (List.mem_cons_self _ _), fun x hx => ?_⟩
  have h2 := (List.pairwise_cons.mp (List.pairwise_cons.mp h.2.1).2).1
  exact h2 x hx

theorem lerp_between (t : K) (ht0 : 0 ≤ t) (ht1 : t ≤ 1) (a b : ℕ) :
    ((min a b : ℕ) : K) ≤ (1 - t) * (a : K) + (b : K) * t ∧
    (1 - t) * (a : K) + (b : K) * t ≤ ((max a b : ℕ) : K) := by
  rcases le_total a b with h | h
  · have hK : (a : K) ≤ (b : K) := Nat.cast_le.mpr h
    rw [min_eq_left h, max_eq_right h]
    constructor <;> nlinarith
  · have hK : (b : K) ≤ (a : K) := Nat.cast_le.mpr h
    rw [min_eq_right h, max_eq_left h]
    constructor <;> nlinarith

/-- A query in `[p0, p1)` between two adjacent keys of a sorted list is answered by
interpolating between these two keys. -/
theorem scan_between (value : K) (pre post : List (GradientKey K)) (p0 p1 : K) (c0 c1 : Color)
    (hs : SortedKeys (pre ++ (p0, c0) :: (p1, c1) :: post))
    (h0 : p0 ≤ value) (h1 : value < p1) :
    GetColor.scan value none (pre ++ (p0, c0) :: (p1, c1) :: post)
      = some (lerpColor ((value - p0) / (p1 - p0)) c0 c1) := by
  have hpre := (sorted_adjacent_bounds pre post (p0, c0) (p1, c1) hs).1
  rw [scan_skip value none pre (p0, c0) _ (fun x hx => le_trans (hpre x hx) h0) h0]
  simp [GetColor.scan, h1]

/-- With `c = 0` the origin is a fixed point that never reaches the escape radius. -/
theorem escapeLoop_origin (remaining i : ℕ) :
    escapeLoop ((0, 0) : complex K) remaining i (0, 0) = (i + remaining, (0, 0)) := by
  induction remaining generalizing i with
  | zero => simp [escapeLoop]
  | succ n ih =>
    have hz : ComplexModifier ((0, 0) : complex K) (0, 0) = (0, 0) := by
      simp [ComplexModifier]
    have hl : ¬ (4 : K) ≤ LengthSquared ((0, 0) : complex K) := by
      simp [LengthSquared]
    simp only [escapeLoop, hz, hl, if_false]
    rw [ih]
    congr 1
    omega

/-- If none of the first `remaining` iterates reaches the escape radius, the loop runs to the
cap and ends at the last iterate. -/
theorem escapeLoop_no_escape (s_C : complex K) (remaining i : ℕ) (z : complex K)
    (h : ∀ n, 1 ≤ n → n ≤ remaining → LengthSquared ((ComplexModifier s_C)^[n] z) < 4) :
    escapeLoop s_C remaining i z = (i + remaining, (ComplexModifier s_C)^[remaining] z) := by
  induction remaining generalizing i z with
  | zero => simp [escapeLoop]
  | succ n ih =>
    have h1 : ¬ (4 : K) ≤ LengthSquared (ComplexModifier s_C z) := by
      have := h 1 le_rfl (Nat.succ_le_succ (Nat.zero_le n))
      simpa using this
    simp only [escapeLoop, h1, if_false]
    rw [ih (i + 1) (ComplexModifier s_C z)]
    · rw [Function.iterate_succ_apply]
      congr 1
      omega
    · intro m hm1 hmn
      have := h (m + 1) (by omega) (by omega)
      rwa [Function.iterate_succ_apply] at this

/-- The rows covered by the workers of a pool are exactly the rows below
`(Height / numThreads) * numThreads`. -/
theorem slices_cover_iff (Height numThreads y : ℕ) :
    (∃ k, k < numThreads ∧ inSlice Height numThreads k y)
      ↔ y < (Height / numThreads) * numThreads := by
  unfold inSlice ySliceBegin ySliceEnd
  constructor
  · rintro ⟨k, hk, -, h2⟩
    exact lt_of_lt_of_le h2 (Nat.mul_le_mul_left _ hk)
  · intro h
    have hq : 0 < Height / numThreads := by
      rcases Nat.eq_zero_or_pos (Height / numThreads) with h0 | h0
      · rw [h0] at h; simp at h
      · exact h0
    refine ⟨y / (Height / numThreads), ?_, Nat.mul_div_le _ _, Nat.lt_mul_div_succ _ hq⟩
    exact Nat.div_lt_of_lt_mul h

/-- No row is computed by two workers. -/
theorem slices_disjoint (Height numThreads k₁ k₂ y : ℕ)
    (h₁ : inSlice Height numThreads k₁ y) (h₂ : inSlice Height numThreads k₂ y) : k₁ = k₂ := by
  unfold inSlice ySliceBegin ySliceEnd at h₁ h₂
  have a : k₁ < k₂ + 1 := Nat.lt_of_mul_lt_mul_left (lt_of_le_of_lt h₁.1 h₂.2)
  have b : k₂ < k₁ + 1 := Nat.lt_of_mul_lt_mul_left (lt_of_le_of_lt h₂.1 h₁.2)
  omega

/-- The point that `DrawPixelFunction` starts from for the pixel `(x, y)` of a freshly resized
buffer: the horizontal coordinate is offset by half the height and the vertical one by half the
width. -/
theorem pixelStartPoint_resized (context : RenderContext K) (W H x y : ℕ)
    (hW : 0 < W) (hH : 0 < H) :
    pixelStartPoint (ResizeRenderTexture context W H) x y
      = (((x : K) - (H : K) / 2) / ((H : K) / 2), ((y : K) - (W : K) / 2) / ((H : K) / 2)) := by
  have hW0 : (W : K) ≠ 0 := Nat.cast_ne_zero.mpr hW.ne.symm
  have hH0 : (H : K) ≠ 0 := Nat.cast_ne_zero.mpr hH.ne.symm
  simp only [pixelStartPoint, startPoint, viewCoords, ResizeRenderTexture, View.reset, map]
  refine Prod.ext ?_ ?_ <;> simp <;> field_simp

/-- For a final iterate inside the escape radius the smoothing term vanishes:
`log2(max(log2(sqrt L), 1)) = 0` whenever `L < 4`.  (At `L = 0`, `Real.logb 2 0` is `0` where
`std::log2(0)` is `-∞`; either way the maximum with 1 is 1.) -/
theorem smoothing_term_inside (L : ℝ) (hL : L < 4) :
    Real.logb 2 (max (Real.logb 2 (Real.sqrt L)) 1) = 0 := by
  have hlt : Real.sqrt L < 2 := by
    rw [Real.sqrt_lt' (by norm_num : (0 : ℝ) < 2)]
    norm_num
    exact hL
  have hlog : Real.logb 2 (Real.sqrt L) ≤ 1 := by
    rcases (Real.sqrt_nonneg L).eq_or_lt with h0 | hpos
    · rw [← h0]; simp
    · have := Real.logb_lt_logb (by norm_num : (1 : ℝ) < 2) hpos hlt
      rw [Real.logb_self_eq_one (by norm_num : (1 : ℝ) < 2)] at this
      exact this.le
  rw [max_eq_right hlog, Real.logb_one]

/-! ### Rounded interpolation -/

theorem scanFl_skip (fl : K → K) (value : K) (prev : Option (GradientKey K))
    (l₁ : List (GradientKey K)) (k : GradientKey K) (l₂ : List (GradientKey K))
    (h₁ : ∀ x ∈ l₁, x.1 ≤ value) (hk : k.1 ≤ value) :
    GetColorFl.scan fl value prev (l₁ ++ k :: l₂) = GetColorFl.scan fl value (some k) l₂ := by
  induction l₁ generalizing prev with
  | nil => simp [GetColorFl.scan, not_lt.mpr hk]
  | cons x xs ih =>
    have hx : x.1 ≤ value := h₁ x (List.mem_cons_self _ _)
    simp only [List.cons_append, GetColorFl.scan, not_lt.mpr hx, if_false]
    exact ih _ fun y hy => h₁ y (List.mem_cons_of_mem _ hy)

theorem scanFl_between (fl : K → K) (value : K) (pre post : List (GradientKey K)) (p0 p1 : K)
    (c0 c1 : Color) (hs : SortedKeys (pre ++ (p0, c0) :: (p1, c1) :: post))
    (h0 : p0 ≤ value) (h1 : value < p1) :
    GetColorFl.scan fl value none (pre ++ (p0, c0) :: (p1, c1) :: post)
      = some (lerpColorFl fl (fl (fl (value - p0) / fl (p1 - p0))) c0 c1) := by
  have hpre := (sorted_adjacent_bounds pre post (p0, c0) (p1, c1) hs).1
  rw [scanFl_skip fl value none pre (p0, c0) _ (fun x hx => le_trans (hpre x hx) h0) h0]
  simp [GetColorFl.scan, h1]

theorem lerpColorFl_get (fl : K → K) (t : K) (c0 c1 : Color) (ch : Channel) :
    (lerpColorFl fl t c0 c1).get ch = lerpChannelFl fl t (c0.get ch) (c1.get ch) := by
  cases ch <;> rfl

theorem FaithfulRounding.zero {fl : K → K} (hfl : FaithfulRounding fl) : fl 0 = 0 := by
  simpa using hfl.exact_nat 0 (by norm_num)

theorem FaithfulRounding.one {fl : K → K} (hfl : FaithfulRounding fl) : fl 1 = 1 := by
  simpa using hfl.exact_nat 1 (by norm_num)

/-- The rounded interpolation parameter of a query in `[p0, p1)` lies in `[0, 1]` and is monotone
in the query. -/
theorem interpolationParameter_bounds (fl : K → K) (hfl : FaithfulRounding fl) (p0 p1 u v : K)
    (hu : p0 ≤ u) (huv : u ≤ v) (hv : v < p1) (hD : fl (p1 - p0) ≠ 0) :
    0 ≤ fl (fl (u - p0) / fl (p1 - p0)) ∧
    fl (fl (u - p0) / fl (p1 - p0)) ≤ fl (fl (v - p0) / fl (p1 - p0)) ∧
    fl (fl (v - p0) / fl (p1 - p0)) ≤ 1 := by
  have hNu : 0 ≤ fl (u - p0) := by
    have := hfl.mono 0 (u - p0) (by linarith)
    rwa [hfl.zero] at this
  have hNuv : fl (u - p0) ≤ fl (v - p0) := hfl.mono _ _ (by linarith)
  have hNv : fl (v - p0) ≤ fl (p1 - p0) := hfl.mono _ _ (by linarith)
  have hDpos : 0 < fl (p1 - p0) := lt_of_le_of_ne (le_trans hNu (le_trans hNuv hNv)) hD.symm
  refine ⟨?_, ?_, ?_⟩
  · have := hfl.mono 0 _ (div_nonneg hNu hDpos.le)
    rwa [hfl.zero] at this
  · exact hfl.mono _ _ (div_le_div_of_nonneg_right hNuv hDpos.le)
  · have := hfl.mono _ 1 ((div_le_one hDpos).mpr hNv)
    rwa [hfl.one] at this

/-- The rounded value of `(1 - t) * a + b * t` for `0 ≤ t ≤ 1` and channels `a`, `b` is not
negative and differs from the exact value by at most `258/1024`. -/
theorem lerpFl_error (fl : K → K) (hfl : FaithfulRounding fl) (t : K) (ht0 : 0 ≤ t) (ht1 : t ≤ 1)
    (ch0 ch1 : Fin 256) :
    0 ≤ fl (fl (fl (1 - t) * ((ch0 : ℕ) : K)) + fl (((ch1 : ℕ) : K) * t)) ∧
    |fl (fl (fl (1 - t) * ((ch0 : ℕ) : K)) + fl (((ch1 : ℕ) : K) * t))
        - ((1 - t) * ((ch0 : ℕ) : K) + ((ch1 : ℕ) : K) * t)| ≤ 258 / 1024 := by
  have h255 : fl (255 : K) = 255 := by
    simpa using hfl.exact_nat 255 (by norm_num)
  have ha0 : (0 : K) ≤ ((ch0 : ℕ) : K) := Nat.cast_nonneg _
  have hb0 : (0 : K) ≤ ((ch1 : ℕ) : K) := Nat.cast_nonneg _
  have ha1 : ((ch0 : ℕ) : K) ≤ 255 := by
    have : (ch0 : ℕ) ≤ 255 := by have := ch0.isLt; omega
    exact_mod_cast this
  have hb1 : ((ch1 : ℕ) : K) ≤ 255 := by
    have : (ch1 : ℕ) ≤ 255 := by have := ch1.isLt; omega
    exact_mod_cast this
  generalize ((ch0 : ℕ) : K) = a at ha0 ha1 ⊢
  generalize ((ch1 : ℕ) : K) = b at hb0 hb1 ⊢
  -- u = fl (1 - t)
  have hu0 : 0 ≤ fl (1 - t) := by
    have := hfl.mono 0 (1 - t) (by linarith)
    rwa [hfl.zero] at this
  have hu1 : fl (1 - t) ≤ 1 := by
    have := hfl.mono (1 - t) 1 (by linarith)
    rwa [hfl.one] at this
  have hue := abs_le.mp (hfl.error (1 - t) (abs_le.mpr ⟨by linarith, by linarith⟩))
  generalize fl (1 - t) = u at hu0 hu1 hue ⊢
  -- A = fl (u * a)
  have hua0 : 0 ≤ u * a := mul_nonneg hu0 ha0
  have hua1 : u * a ≤ 255 := by
    calc u * a ≤ 1 * 255 := mul_le_mul hu1 ha1 ha0 (by norm_num)
      _ = 255 := by norm_num
  have hA0 : 0 ≤ fl (u * a) := by
    have := hfl.mono 0 _ hua0
    rwa [hfl.zero] at this
  have hA1 : fl (u * a) ≤ 255 := by
    have := hfl.mono _ 255 hua1
    rwa [h255] at this
  have hAe := abs_le.mp (hfl.error (u * a) (abs_le.mpr ⟨by linarith, by linarith⟩))
  have hprod1 : (u - (1 - t)) * a ≤ 1 / 1024 * 255 :=
    le_trans (mul_le_mul_of_nonneg_right hue.2 ha0)
      (mul_le_mul_of_nonneg_left ha1 (by norm_num))
  have hprod2 : -(1 / 1024 * 255) ≤ (u - (1 - t)) * a := by
    have h1 : -(1 / 1024) * a ≤ (u - (1 - t)) * a := mul_le_mul_of_nonneg_right hue.1 ha0
    have h2 : (1 / 1024 : K) * a ≤ 1 / 1024 * 255 := mul_le_mul_of_nonneg_left ha1 (by norm_num)
    linarith
  have hexp : (u - (1 - t)) * a = u * a - (1 - t) * a := by ring
  rw [hexp] at hprod1 hprod2
  generalize hA : fl (u * a) = A at hA0 hA1 hAe ⊢
  generalize u * a = ua at hAe hprod1 hprod2
  -- B = fl (b * t)
  have hbt0 : 0 ≤ b * t := mul_nonneg hb0 ht0
  have hbt1 : b * t ≤ 255 := by
    calc b * t ≤ 255 * 1 := mul_le_mul hb1 ht1 ht0 (by norm_num)
      _ = 255 := by norm_num
  have hB0 : 0 ≤ fl (b * t) := by
    have := hfl.mono 0 _ hbt0
    rwa [hfl.zero] at this
  have hB1 : fl (b * t) ≤ 255 := by
    have := hfl.mono _ 255 hbt1
    rwa [h255] at this
  have hBe := abs_le.mp (hfl.error (b * t) (abs_le.mpr ⟨by linarith, by linarith⟩))
  generalize fl (b * t) = B at hB0 hB1 hBe ⊢
  generalize b * t = bt at hBe ⊢
  generalize (1 - t) * a = ta at hprod1 hprod2 ⊢
  -- S = fl (A + B)
  have hS0 : 0 ≤ fl (A + B) := by
    have := hfl.mono 0 _ (add_nonneg hA0 hB0)
    rwa [hfl.zero] at this
  have hSe := abs_le.mp (hfl.error (A + B) (abs_le.mpr ⟨by linarith, by linarith⟩))
  refine ⟨hS0, abs_le.mpr ⟨?_, ?_⟩⟩ <;> linarith

/-- For `0 ≤ t ≤ 1` the rounded interpolated channel is the truncation of the rounded value,
without wrapping, and lies between the smaller end channel minus one and the larger one. -/
theorem lerpChannelFl_spec (fl : K → K) (hfl : FaithfulRounding fl) (t : K) (ht0 : 0 ≤ t)
    (ht1 : t ≤ 1) (ch0 ch1 : Fin 256) :
    (((lerpChannelFl fl t ch0 ch1 : Fin 256) : ℕ) : ℤ)
        = truncate (fl (fl (fl (1 - t) * ((ch0 : ℕ) : K)) + fl (((ch1 : ℕ) : K) * t))) ∧
    (((lerpChannelFl fl t ch0 ch1 : Fin 256) : ℕ) : ℤ)
        = ⌊fl (fl (fl (1 - t) * ((ch0 : ℕ) : K)) + fl (((ch1 : ℕ) : K) * t))⌋ ∧
    min (ch0 : ℕ) (ch1 : ℕ) ≤ ((lerpChannelFl fl t ch0 ch1 : Fin 256) : ℕ) + 1 ∧
    ((lerpChannelFl fl t ch0 ch1 : Fin 256) : ℕ) ≤ max (ch0 : ℕ) (ch1 : ℕ) := by
  obtain ⟨hlo, hhi⟩ := lerp_between t ht0 ht1 (ch0 : ℕ) (ch1 : ℕ)
  obtain ⟨hS0, hSe⟩ := lerpFl_error fl hfl t ht0 ht1 ch0 ch1
  set S : K := fl (fl (fl (1 - t) * ((ch0 : ℕ) : K)) + fl (((ch1 : ℕ) : K) * t)) with hS
  set X : K := (1 - t) * ((ch0 : ℕ) : K) + ((ch1 : ℕ) : K) * t with hX
  have hSe' := abs_le.mp hSe
  have htr : truncate S = ⌊S⌋ := by simp [truncate, hS0]
  have hmax : max (ch0 : ℕ) (ch1 : ℕ) < 256 := max_lt ch0.isLt ch1.isLt
  have h0 : (0 : ℤ) ≤ ⌊S⌋ := Int.floor_nonneg.mpr hS0
  have h1 : ((min (ch0 : ℕ) (ch1 : ℕ) : ℕ) : ℤ) - 1 ≤ ⌊S⌋ := by
    apply Int.le_floor.mpr
    push_cast
    have : ((min (ch0 : ℕ) (ch1 : ℕ) : ℕ) : K) ≤ X := hlo
    push_cast at this
    linarith
  have h2 : ⌊S⌋ < ((max (ch0 : ℕ) (ch1 : ℕ) : ℕ) : ℤ) + 1 := by
    apply Int.floor_lt.mpr
    push_cast
    have : X ≤ ((max (ch0 : ℕ) (ch1 : ℕ) : ℕ) : K) := hhi
    push_cast at this
    linarith
  have hval : (((lerpChannelFl fl t ch0 ch1 : Fin 256) : ℕ) : ℤ) = ⌊S⌋ := by
    simp only [lerpChannelFl, toUint8, ← hS, htr]
    omega
  refine ⟨by rw [hval, htr], hval, ?_, ?_⟩ <;> omega

/-- The rounded interpolated channel is monotone in `t` on `[0, 1]` up to one unit. -/
theorem lerpChannelFl_mono (fl : K → K) (hfl : FaithfulRounding fl) (s t : K) (hs0 : 0 ≤ s)
    (hst : s ≤ t) (ht1 : t ≤ 1) (ch0 ch1 : Fin 256) :
    ((ch0 : ℕ) ≤ (ch1 : ℕ) →
      ((lerpChannelFl fl s ch0 ch1 : Fin 256) : ℕ)
        ≤ ((lerpChannelFl fl t ch0 ch1 : Fin 256) : ℕ) + 1) ∧
    ((ch1 : ℕ) ≤ (ch0 : ℕ) →
      ((lerpChannelFl fl t ch0 ch1 : Fin 256) : ℕ)
        ≤ ((lerpChannelFl fl s ch0 ch1 : Fin 256) : ℕ) + 1) := by
  obtain ⟨-, hs, -, -⟩ := lerpChannelFl_spec fl hfl s hs0 (le_trans hst ht1) ch0 ch1
  obtain ⟨-, ht, -, -⟩ := lerpChannelFl_spec fl hfl t (le_trans hs0 hst) ht1 ch0 ch1
  obtain ⟨-, hes⟩ := lerpFl_error fl hfl s hs0 (le_trans hst ht1) ch0 ch1
  obtain ⟨-, het⟩ := lerpFl_error fl hfl t (le_trans hs0 hst) ht1 ch0 ch1
  have hes' := abs_le.mp hes
  have het' := abs_le.mp het
  set Ss : K := fl (fl (fl (1 - s) * ((ch0 : ℕ) : K)) + fl (((ch1 : ℕ) : K) * s)) with hSs
  set St : K := fl (fl (fl (1 - t) * ((ch0 : ℕ) : K)) + fl (((ch1 : ℕ) : K) * t)) with hSt
  have fs1 := Int.floor_le Ss
  have fs2 := Int.lt_floor_add_one Ss
  have ft1 := Int.floor_le St
  have ft2 := Int.lt_floor_add_one St
  constructor
  · intro h
    have hK : ((ch0 : ℕ) : K) ≤ ((ch1 : ℕ) : K) := Nat.cast_le.mpr h
    have : ((⌊Ss⌋ : ℤ) : K) < ((⌊St⌋ + 2 : ℤ) : K) := by
      push_cast
      nlinarith
    have := Int.cast_lt.mp this
    omega
  · intro h
    have hK : ((ch1 : ℕ) : K) ≤ ((ch0 : ℕ) : K) := Nat.cast_le.mpr h
    have : ((⌊St⌋ : ℤ) : K) < ((⌊Ss⌋ + 2 : ℤ) : K) := by
      push_cast
      nlinarith
    have := Int.cast_lt.mp this
    omega

/-- Without rounding (`fl = id`) the rounded lookup is the plain one. -/
theorem scanFl_id (value : K) (prev : Option (GradientKey K)) (keys : List (GradientKey K)) :
    GetColorFl.scan id value prev keys = GetColor.scan value prev keys := by
  induction keys generalizing prev with
  | nil => rfl
  | cons k ks ih =>
    by_cases h : value < k.1
    · cases prev with
      | none => simp [GetColorFl.scan, GetColor.scan, h]
      | some key0 =>
        simp only [GetColorFl.scan, GetColor.scan, h, if_true]
        rfl
    · simp only [GetColorFl.scan, GetColor.scan, h, if_false]
      exact ih _

theorem GetColorFl_id (g : Gradient K) (value : K) : GetColorFl id g value = GetColor g value :=
  scanFl_id _ none g.m_keys

/-- Without rounding (`fl = id`) the rounded re-keying is the plain one. -/
theorem SetDomainFl_id (g : Gradient K) (domain : K × K) (normalize : Bool) :
    SetDomainFl id g domain normalize = SetDomain g domain normalize := by
  cases normalize <;> rfl

end Lemmas

/-! ## Facts about the IEEE rounding -/

theorem pow2_eq (e : ℤ) : pow2 e = (2 : ℚ) ^ e := by
  unfold pow2
  split_ifs with h
  · obtain ⟨n, rfl⟩ := Int.eq_ofNat_of_zero_le h
    simp
  · push_neg at h
    obtain ⟨n, hn⟩ := Int.eq_ofNat_of_zero_le (by omega : 0 ≤ -e)
    have he : e = -(n : ℤ) := by omega
    subst he
    simp

theorem bitLength_bounds (fuel n : ℕ) (hn : n ≠ 0) (hf : n ≤ fuel) :
    2 ^ (bitLength fuel n - 1) ≤ n ∧ n < 2 ^ bitLength fuel n ∧ 1 ≤ bitLength fuel n := by
  induction fuel generalizing n with
  | zero => omega
  | succ f ih =>
    simp only [bitLength, hn, if_false]
    by_cases h2 : n / 2 = 0
    · have h1 : n = 1 := by omega
      subst h1
      cases f <;> simp [bitLength]
    · obtain ⟨a, b, c⟩ := ih (n / 2) h2 (by omega)
      refine ⟨?_, ?_, by omega⟩
      · have : bitLength f (n / 2) + 1 - 1 = (bitLength f (n / 2) - 1) + 1 := by omega
        rw [this, pow_succ]
        omega
      · rw [pow_succ]
        omega

theorem floorLog2_bounds (x : ℚ) (hx : x ≠ 0) :
    (2 : ℚ) ^ floorLog2 x ≤ |x| ∧ |x| < (2 : ℚ) ^ (floorLog2 x + 1) := by
  have hnum : x.num.natAbs ≠ 0 := by
    simpa using Rat.num_ne_zero.mpr hx
  have hden : x.den ≠ 0 := x.den_nz
  obtain ⟨n1, n2, n3⟩ := bitLength_bounds x.num.natAbs x.num.natAbs hnum le_rfl
  obtain ⟨d1, d2, d3⟩ := bitLength_bounds x.den x.den hden le_rfl
  set bn := bitLength x.num.natAbs x.num.natAbs with hbn
  set bd := bitLength x.den x.den with hbd
  have habs : |x| = (x.num.natAbs : ℚ) / (x.den : ℚ) := by
    conv_lhs => rw [← Rat.num_div_den x]
    rw [abs_div, Nat.abs_cast]
    congr 1
    rw [Nat.cast_natAbs, Int.cast_abs]
  have hdpos : (0 : ℚ) < (x.den : ℚ) := by exact_mod_cast Nat.pos_of_ne_zero hden
  have two_pos : (0 : ℚ) < 2 := by norm_num
  -- bounds on numerator and denominator as rationals
  have hn_lo : (2 : ℚ) ^ ((bn : ℤ) - 1) ≤ (x.num.natAbs : ℚ) := by
    have : ((bn : ℤ) - 1) = ((bn - 1 : ℕ) : ℤ) := by omega
    rw [this, zpow_natCast]
    exact_mod_cast n1
  have hn_hi : (x.num.natAbs : ℚ) < (2 : ℚ) ^ (bn : ℤ) := by
    rw [zpow_natCast]
    exact_mod_cast n2
  have hd_lo : (2 : ℚ) ^ ((bd : ℤ) - 1) ≤ (x.den : ℚ) := by
    have : ((bd : ℤ) - 1) = ((bd - 1 : ℕ) : ℤ) := by omega
    rw [this, zpow_natCast]
    exact_mod_cast d1
  have hd_hi : (x.den : ℚ) < (2 : ℚ) ^ (bd : ℤ) := by
    rw [zpow_natCast]
    exact_mod_cast d2
  -- |x| lies strictly between 2^(k-1) and 2^(k+1) for k = bn - bd
  have hlow : (2 : ℚ) ^ ((bn : ℤ) - (bd : ℤ) - 1) ≤ |x| := by
    rw [habs, le_div_iff₀ hdpos]
    calc (2 : ℚ) ^ ((bn : ℤ) - (bd : ℤ) - 1) * (x.den : ℚ)
        ≤ (2 : ℚ) ^ ((bn : ℤ) - (bd : ℤ) - 1) * (2 : ℚ) ^ (bd : ℤ) :=
          mul_le_mul_of_nonneg_left hd_hi.le (zpow_nonneg two_pos.le _)
      _ = (2 : ℚ) ^ ((bn : ℤ) - 1) := by
          rw [← zpow_add₀ two_pos.ne.symm]; congr 1; ring
      _ ≤ _ := hn_lo
  have hhigh : |x| < (2 : ℚ) ^ ((bn : ℤ) - (bd : ℤ) + 1) := by
    rw [habs, div_lt_iff₀ hdpos]
    calc (x.num.natAbs : ℚ) < (2 : ℚ) ^ (bn : ℤ) := hn_hi
      _ = (2 : ℚ) ^ ((bn : ℤ) - (bd : ℤ) + 1) * (2 : ℚ) ^ ((bd : ℤ) - 1) := by
          rw [← zpow_add₀ two_pos.ne.symm]; congr 1; ring
      _ ≤ (2 : ℚ) ^ ((bn : ℤ) - (bd : ℤ) + 1) * (x.den : ℚ) :=
          mul_le_mul_of_nonneg_left hd_lo (zpow_nonneg two_pos.le _)
  unfold floorLog2
  rw [← hbn, ← hbd, pow2_eq]
  split_ifs with h
  · exact ⟨h, hhigh⟩
  · push_neg at h
    refine ⟨hlow, ?_⟩
    have : (bn : ℤ) - (bd : ℤ) - 1 + 1 = (bn : ℤ) - (bd : ℤ) := by ring
    rw [this]
    exact h

theorem roundHalfEven_intCast (m : ℤ) : roundHalfEven (m : ℚ) = m := by
  simp [roundHalfEven]

theorem roundHalfEven_bounds (y : ℚ) : ⌊y⌋ ≤ roundHalfEven y ∧ roundHalfEven y ≤ ⌊y⌋ + 1 := by
  unfold roundHalfEven
  split_ifs <;> omega

theorem roundHalfEven_error (y : ℚ) : |(roundHalfEven y : ℚ) - y| ≤ 1 / 2 := by
  have h1 := Int.floor_le y
  have h2 := Int.lt_floor_add_one y
  unfold roundHalfEven
  rw [abs_le]
  split_ifs with a b c <;> push_cast <;> constructor <;> linarith

theorem roundHalfEven_mono {y z : ℚ} (h : y ≤ z) : roundHalfEven y ≤ roundHalfEven z := by
  have hf : ⌊y⌋ ≤ ⌊z⌋ := Int.floor_le_floor h
  rcases hf.lt_or_eq with hlt | heq
  · have h1 := (roundHalfEven_bounds y).2
    have h2 := (roundHalfEven_bounds z).1
    omega
  · unfold roundHalfEven
    rw [heq]
    split_ifs <;> first | omega | (exfalso; linarith)

/-- The unit in the last place of `x`, as a rational. -/
theorem ulp_pos (prec : ℕ) (emin : ℤ) (x : ℚ) : (0 : ℚ) < (2 : ℚ) ^ ulpExponent prec emin x :=
  zpow_pos (by norm_num) _

theorem roundBinary_eq (prec : ℕ) (emin : ℤ) (x : ℚ) :
    roundBinary prec emin x
      = (roundHalfEven (x / (2 : ℚ) ^ ulpExponent prec emin x) : ℚ)
          * (2 : ℚ) ^ ulpExponent prec emin x := by
  unfold roundBinary
  split_ifs with h
  · simp [h, roundHalfEven]
  · rw [pow2_eq]

theorem roundBinary_le_multiple (prec : ℕ) (emin : ℤ) (x : ℚ) (M : ℤ)
    (h : x ≤ (M : ℚ) * (2 : ℚ) ^ ulpExponent prec emin x) :
    roundBinary prec emin x ≤ (M : ℚ) * (2 : ℚ) ^ ulpExponent prec emin x := by
  have hq := ulp_pos prec emin x
  rw [roundBinary_eq]
  refine mul_le_mul_of_nonneg_right ?_ hq.le
  have : x / (2 : ℚ) ^ ulpExponent prec emin x ≤ (M : ℚ) := (div_le_iff₀ hq).mpr h
  have := roundHalfEven_mono this
  rw [roundHalfEven_intCast] at this
  exact_mod_cast this

theorem roundBinary_ge_multiple (prec : ℕ) (emin : ℤ) (x : ℚ) (M : ℤ)
    (h : (M : ℚ) * (2 : ℚ) ^ ulpExponent prec emin x ≤ x) :
    (M : ℚ) * (2 : ℚ) ^ ulpExponent prec emin x ≤ roundBinary prec emin x := by
  have hq := ulp_pos prec emin x
  rw [roundBinary_eq]
  refine mul_le_mul_of_nonneg_right ?_ hq.le
  have : (M : ℚ) ≤ x / (2 : ℚ) ^ ulpExponent prec emin x := (le_div_iff₀ hq).mpr h
  have := roundHalfEven_mono this
  rw [roundHalfEven_intCast] at this
  exact_mod_cast this

theorem roundBinary_error (prec : ℕ) (emin : ℤ) (x : ℚ) :
    |roundBinary prec emin x - x| ≤ (2 : ℚ) ^ ulpExponent prec emin x / 2 := by
  have hq := ulp_pos prec emin x
  have h := roundHalfEven_error (x / (2 : ℚ) ^ ulpExponent prec emin x)
  rw [roundBinary_eq]
  have e : (roundHalfEven (x / (2 : ℚ) ^ ulpExponent prec emin x) : ℚ)
        * (2 : ℚ) ^ ulpExponent prec emin x - x
      = ((roundHalfEven (x / (2 : ℚ) ^ ulpExponent prec emin x) : ℚ)
          - x / (2 : ℚ) ^ ulpExponent prec emin x) * (2 : ℚ) ^ ulpExponent prec emin x := by
    field_simp
  rw [e, abs_mul, abs_of_pos hq]
  calc _ ≤ 1 / 2 * (2 : ℚ) ^ ulpExponent prec emin x := mul_le_mul_of_nonneg_right h hq.le
    _ = _ := by ring

theorem two_zpow_le {m n : ℤ} (h : m ≤ n) : (2 : ℚ) ^ m ≤ (2 : ℚ) ^ n :=
  zpow_le_zpow_right₀ (by norm_num) h

/-- A power of two whose exponent is not below the unit in the last place is a multiple of it. -/
theorem two_zpow_multiple (E L : ℤ) (h : E ≤ L) :
    (2 : ℚ) ^ L = (((2 ^ (L - E).toNat : ℕ) : ℤ) : ℚ) * (2 : ℚ) ^ E := by
  have h2 : (2 : ℚ) ≠ 0 := by norm_num
  have : (((2 ^ (L - E).toNat : ℕ) : ℤ) : ℚ) = (2 : ℚ) ^ (L - E) := by
    push_cast
    rw [← zpow_natCast, Int.toNat_of_nonneg (by omega)]
  rw [this, ← zpow_add₀ h2]
  congr 1
  ring

theorem floorLog2_mono_abs (x y : ℚ) (hx : x ≠ 0) (hy : y ≠ 0) (h : |x| ≤ |y|) :
    floorLog2 x ≤ floorLog2 y := by
  by_contra hc
  push_neg at hc
  have h1 := (floorLog2_bounds x hx).1
  have h2 := (floorLog2_bounds y hy).2
  have h3 : (2 : ℚ) ^ (floorLog2 y + 1) ≤ (2 : ℚ) ^ floorLog2 x := two_zpow_le (by omega)
  linarith

theorem roundBinary_nonneg (prec : ℕ) (emin : ℤ) (x : ℚ) (h : 0 ≤ x) :
    0 ≤ roundBinary prec emin x := by
  have := roundBinary_ge_multiple prec emin x 0 (by simpa using h)
  simpa using this

theorem roundBinary_nonpos (prec : ℕ) (emin : ℤ) (x : ℚ) (h : x ≤ 0) :
    roundBinary prec emin x ≤ 0 := by
  have := roundBinary_le_multiple prec emin x 0 (by simpa using h)
  simpa using this

theorem roundBinary_mono_pos (prec : ℕ) (emin : ℤ) (hp : 1 ≤ prec) (x y : ℚ)
    (hx : 0 < x) (hxy : x ≤ y) : roundBinary prec emin x ≤ roundBinary prec emin y := by
  have hy : 0 < y := lt_of_lt_of_le hx hxy
  have hL : floorLog2 x ≤ floorLog2 y :=
    floorLog2_mono_abs x y hx.ne.symm hy.ne.symm (by rw [abs_of_pos hx, abs_of_pos hy]; exact hxy)
  have hbx := floorLog2_bounds x hx.ne.symm
  have hby := floorLog2_bounds y hy.ne.symm
  rw [abs_of_pos hx] at hbx
  rw [abs_of_pos hy] at hby
  have hEx : ulpExponent prec emin x = max (floorLog2 x - ((prec : ℤ) - 1)) emin := rfl
  have hEy : ulpExponent prec emin y = max (floorLog2 y - ((prec : ℤ) - 1)) emin := rfl
  have hp' : (1 : ℤ) ≤ (prec : ℤ) := by exact_mod_cast hp
  by_cases hE : ulpExponent prec emin x = ulpExponent prec emin y
  · rw [roundBinary_eq, roundBinary_eq, hE]
    refine mul_le_mul_of_nonneg_right ?_ (ulp_pos prec emin y).le
    have : x / (2 : ℚ) ^ ulpExponent prec emin y ≤ y / (2 : ℚ) ^ ulpExponent prec emin y :=
      div_le_div_of_nonneg_right hxy (ulp_pos prec emin y).le
    exact_mod_cast roundHalfEven_mono this
  · have hlt : floorLog2 x < floorLog2 y := by
      rcases hL.lt_or_eq with h | h
      · exact h
      · exact absurd (by rw [hEx, hEy, h]) hE
    have hEy' : ulpExponent prec emin y ≤ floorLog2 y := by
      rw [hEy]
      have : emin ≤ ulpExponent prec emin x := by rw [hEx]; exact le_max_right _ _
      have hmx : floorLog2 x - ((prec : ℤ) - 1) ≤ ulpExponent prec emin x := by
        rw [hEx]; exact le_max_left _ _
      rcases le_total (floorLog2 y - ((prec : ℤ) - 1)) emin with h | h
      · exfalso
        apply hE
        rw [hEx, hEy, max_eq_right h, max_eq_right (by omega)]
      · rw [max_eq_left h]; omega
    have hEx' : ulpExponent prec emin x ≤ floorLog2 y := by
      rw [hEx]
      have : emin ≤ ulpExponent prec emin y := by rw [hEy]; exact le_max_right _ _
      apply max_le <;> omega
    have hT1 : roundBinary prec emin x ≤ (2 : ℚ) ^ floorLog2 y := by
      rw [two_zpow_multiple _ _ hEx']
      apply roundBinary_le_multiple
      rw [← two_zpow_multiple _ _ hEx']
      exact le_trans hbx.2.le (two_zpow_le (by omega))
    have hT2 : (2 : ℚ) ^ floorLog2 y ≤ roundBinary prec emin y := by
      rw [two_zpow_multiple _ _ hEy']
      apply roundBinary_ge_multiple
      rw [← two_zpow_multiple _ _ hEy']
      exact hby.1
    exact le_trans hT1 hT2

theorem roundBinary_mono_neg (prec : ℕ) (emin : ℤ) (hp : 1 ≤ prec) (x y : ℚ)
    (hy : y < 0) (hxy : x ≤ y) : roundBinary prec emin x ≤ roundBinary prec emin y := by
  have hx : x < 0 := lt_of_le_of_lt hxy hy
  have hL : floorLog2 y ≤ floorLog2 x :=
    floorLog2_mono_abs y x hy.ne hx.ne (by rw [abs_of_neg hx, abs_of_neg hy]; linarith)
  have hbx := floorLog2_bounds x hx.ne
  have hby := floorLog2_bounds y hy.ne
  rw [abs_of_neg hx] at hbx
  rw [abs_of_neg hy] at hby
  have hEx : ulpExponent prec emin x = max (floorLog2 x - ((prec : ℤ) - 1)) emin := rfl
  have hEy : ulpExponent prec emin y = max (floorLog2 y - ((prec : ℤ) - 1)) emin := rfl
  have hp' : (1 : ℤ) ≤ (prec : ℤ) := by exact_mod_cast hp
  by_cases hE : ulpExponent prec emin x = ulpExponent prec emin y
  · rw [roundBinary_eq, roundBinary_eq, hE]
    refine mul_le_mul_of_nonneg_right ?_ (ulp_pos prec emin y).le
    have : x / (2 : ℚ) ^ ulpExponent prec emin y ≤ y / (2 : ℚ) ^ ulpExponent prec emin y :=
      div_le_div_of_nonneg_right hxy (ulp_pos prec emin y).le
    exact_mod_cast roundHalfEven_mono this
  · have hlt : floorLog2 y < floorLog2 x := by
      rcases hL.lt_or_eq with h | h
      · exact h
      · exact absurd (by rw [hEx, hEy, h]) hE
    have hEx' : ulpExponent prec emin x ≤ floorLog2 x := by
      rw [hEx]
      rcases le_total (floorLog2 x - ((prec : ℤ) - 1)) emin with h | h
      · exfalso
        apply hE
        rw [hEx, hEy, max_eq_right h, max_eq_right (by omega)]
      · rw [max_eq_left h]; omega
    have hEy' : ulpExponent prec emin y ≤ floorLog2 x := by
      rw [hEy]
      have : emin ≤ ulpExponent prec emin x := by rw [hEx]; exact le_max_right _ _
      apply max_le <;> omega
    have hT1 : roundBinary prec emin x ≤ -(2 : ℚ) ^ floorLog2 x := by
      have e : -(2 : ℚ) ^ floorLog2 x
          = ((-((2 ^ (floorLog2 x - ulpExponent prec emin x).toNat : ℕ) : ℤ) : ℤ) : ℚ)
              * (2 : ℚ) ^ ulpExponent prec emin x := by
        rw [two_zpow_multiple _ _ hEx']; push_cast; ring
      rw [e]
      apply roundBinary_le_multiple
      rw [← e]
      linarith [hbx.1]
    have hT2 : -(2 : ℚ) ^ floorLog2 x ≤ roundBinary prec emin y := by
      have e : -(2 : ℚ) ^ floorLog2 x
          = ((-((2 ^ (floorLog2 x - ulpExponent prec emin y).toNat : ℕ) : ℤ) : ℤ) : ℚ)
              * (2 : ℚ) ^ ulpExponent prec emin y := by
        rw [two_zpow_multiple _ _ hEy']; push_cast; ring
      rw [e]
      apply roundBinary_ge_multiple
      rw [← e]
      have := two_zpow_le (show floorLog2 y + 1 ≤ floorLog2 x by omega)
      linarith [hby.2]
    exact le_trans hT1 hT2

theorem roundBinary_mono (prec : ℕ) (emin : ℤ) (hp : 1 ≤ prec) (x y : ℚ) (hxy : x ≤ y) :
    roundBinary prec emin x ≤ roundBinary prec emin y := by
  rcases lt_trichotomy 0 x with hx | hx | hx
  · exact roundBinary_mono_pos prec emin hp x y hx hxy
  · subst hx
    exact le_trans (roundBinary_nonpos prec emin 0 le_rfl) (roundBinary_nonneg prec emin y hxy)
  · rcases lt_or_le y 0 with hy | hy
    · exact roundBinary_mono_neg prec emin hp x y hy hxy
    · exact le_trans (roundBinary_nonpos prec emin x hx.le) (roundBinary_nonneg prec emin y hy)


theorem floorLog2_lt_of_abs_lt (x : ℚ) (hx : x ≠ 0) (n : ℤ) (h : |x| < (2 : ℚ) ^ n) :
    floorLog2 x < n := by
  by_contra hc
  push_neg at hc
  have h1 := (floorLog2_bounds x hx).1
  have h2 : (2 : ℚ) ^ n ≤ (2 : ℚ) ^ floorLog2 x := two_zpow_le hc
  linarith

/-- A value that is a multiple of its unit in the last place is not changed by the rounding. -/
theorem roundBinary_multiple (prec : ℕ) (emin : ℤ) (x : ℚ) (M : ℤ)
    (h : x = (M : ℚ) * (2 : ℚ) ^ ulpExponent prec emin x) : roundBinary prec emin x = x := by
  apply le_antisymm
  · calc roundBinary prec emin x ≤ (M : ℚ) * (2 : ℚ) ^ ulpExponent prec emin x :=
        roundBinary_le_multiple prec emin x M h.le
      _ = x := h.symm
  · calc x = (M : ℚ) * (2 : ℚ) ^ ulpExponent prec emin x := h
      _ ≤ roundBinary prec emin x := roundBinary_ge_multiple prec emin x M h.symm.le

/-- Binary rounding with at least 20 significand bits and subnormals below `2 ^ (-10)` (binary32
and binary64 among them) is monotone, exact on the integers up to 255 and moves a value of
`[-512, 512]` by at most `1/1024`. -/
theorem roundBinary_faithful (prec : ℕ) (emin : ℤ) (hp : 20 ≤ prec) (he : emin ≤ -10) :
    FaithfulRounding (roundBinary prec emin) := by
  have hp' : (20 : ℤ) ≤ (prec : ℤ) := by exact_mod_cast hp
  refine ⟨roundBinary_mono prec emin (by omega), ?_, ?_⟩
  · intro n hn
    rcases Nat.eq_zero_or_pos n with h0 | hpos
    · subst h0; simp [roundBinary]
    · have hx : ((n : ℕ) : ℚ) ≠ 0 := by exact_mod_cast hpos.ne.symm
      have hlt : |((n : ℕ) : ℚ)| < (2 : ℚ) ^ (8 : ℤ) := by
        rw [abs_of_nonneg (Nat.cast_nonneg n)]
        have : (n : ℚ) ≤ 255 := by exact_mod_cast hn
        norm_num
        linarith
      have hL := floorLog2_lt_of_abs_lt _ hx 8 hlt
      have hE : ulpExponent prec emin (n : ℚ) ≤ 0 := by
        unfold ulpExponent
        apply max_le <;> omega
      have h1 := two_zpow_multiple (ulpExponent prec emin (n : ℚ)) 0 hE
      rw [zpow_zero] at h1
      apply roundBinary_multiple prec emin _
        ((n : ℤ) * ((2 ^ (0 - ulpExponent prec emin (n : ℚ)).toNat : ℕ) : ℤ))
      push_cast
      push_cast at h1
      rw [mul_assoc, ← h1, mul_one]
  · intro x hx
    rcases eq_or_ne x 0 with h0 | h0
    · subst h0; simp [roundBinary]
    · have hlt : |x| < (2 : ℚ) ^ (10 : ℤ) := by
        norm_num
        linarith
      have hL := floorLog2_lt_of_abs_lt _ h0 10 hlt
      have hE : ulpExponent prec emin x ≤ -10 := by
        unfold ulpExponent
        apply max_le <;> omega
      have h1 := roundBinary_error prec emin x
      have h2 : (2 : ℚ) ^ ulpExponent prec emin x ≤ (2 : ℚ) ^ (-10 : ℤ) := two_zpow_le hE
      have h3 : (2 : ℚ) ^ (-10 : ℤ) = 1 / 1024 := by norm_num
      rw [h3] at h2
      linarith

theorem roundDouble_faithful : FaithfulRounding roundDouble :=
  roundBinary_faithful 53 (-1074) (by norm_num) (by norm_num)

/-! ## Gradient: insertion order -/

section GradientTheorems

variable {K : Type} [LinearOrderedField K] [FloorRing K]

/-- C1: `Gradient::AddKey` on a gradient with `high ≠ low` and sorted keys yields a key list that
is again sorted by ascending normalized position and is a permutation of the old keys plus the new
key (normalized), and leaves the domain alone; hence every sequence of `AddKey` calls starting
from the empty key list yields a sorted key list. -/
theorem AddKey_preserves_sorted (g : Gradient K) (key : GradientKey K)
    (hd : g.m_domain.2 ≠ g.m_domain.1) (hs : SortedKeys g.m_keys) :
    SortedKeys (AddKey g key).m_keys ∧
    (AddKey g key).m_keys.Perm ((NormalizeValue g.m_domain key.1, key.2) :: g.m_keys) ∧
    (AddKey g key).m_domain = g.m_domain ∧
    ∀ inserts : List (GradientKey K),
      SortedKeys (inserts.foldl AddKey (⟨[], g.m_domain⟩ : Gradient K)).m_keys := by
  refine ⟨insertKey_sorted _ _ hs, insertKey_perm _ _, rfl, fun inserts => ?_⟩
  exact foldl_AddKey_sorted inserts _ (by simp [SortedKeys])

/-- C1, at a concrete input: inserting the absolute position 50 (a position already present)
into the gradient over `[0, 100]` with keys at 0, 50 and 100. -/
theorem AddKey_preserves_sorted_witness :
    ((0 : ℚ), (100 : ℚ)).2 ≠ ((0 : ℚ), (100 : ℚ)).1 ∧
    SortedKeys [((0 : ℚ), Color.White), (1 / 2, Color.Red), (1, Color.Blue)] ∧
    (AddKey (⟨[((0 : ℚ), Color.White), (1 / 2, Color.Red), (1, Color.Blue)], (0, 100)⟩ :
        Gradient ℚ) (50, Color.Green)).m_keys =
      [(0, Color.White), (1 / 2, Color.Red), (1 / 2, Color.Green), (1, Color.Blue)] ∧
    SortedKeys (AddKey (⟨[((0 : ℚ), Color.White), (1 / 2, Color.Red), (1, Color.Blue)], (0, 100)⟩ :
        Gradient ℚ) (50, Color.Green)).m_keys :=
  ⟨by decide!, by decide!, by decide!,
   (AddKey_preserves_sorted
      (⟨[((0 : ℚ), Color.White), (1 / 2, Color.Red), (1, Color.Blue)], (0, 100)⟩ : Gradient ℚ)
      (50, Color.Green) (by decide!) (by decide!)).1⟩

/-! ## Gradient: colour lookup -/

/-- C2, as stated, fails when a later key shares the upper position: in the sorted gradient
`(0, White), (1, Red), (1, Green)` over `[0, 1]` the keys `(0, White), (1, Red)` are adjacent with
`0 < 1`, and the query whose normalized position is `1` returns `Green`, not `Red`. -/
theorem GetColor_at_upper_key_counterexample :
    duplicateKeyGradient.m_domain.2 ≠ duplicateKeyGradient.m_domain.1 ∧
    SortedKeys duplicateKeyGradient.m_keys ∧
    duplicateKeyGradient.m_keys
      = [] ++ ((0 : ℚ), Color.White) :: ((1 : ℚ), Color.Red) :: [((1 : ℚ), Color.Green)] ∧
    (0 : ℚ) < 1 ∧
    NormalizeValue duplicateKeyGradient.m_domain 1 = 1 ∧
    GetColor duplicateKeyGradient 1 = some Color.Green ∧
    GetColor duplicateKeyGradient 1 ≠ some Color.Red := by
  decide!

/-- C2 (amended): in a sorted gradient with `high ≠ low`, for adjacent keys `(p0, c0)`, `(p1, c1)`
with `p0 < p1`, `GetColor` at the value whose normalized position is `p0` returns exactly `c0`, and
at the value whose normalized position is `p1` it returns exactly `c1` provided no later key has
the position `p1`. -/
theorem GetColor_at_adjacent_keys (g : Gradient K) (pre post : List (GradientKey K))
    (p0 p1 : K) (c0 c1 : Color) (v0 v1 : K)
    (hd : g.m_domain.2 ≠ g.m_domain.1)
    (hk : g.m_keys = pre ++ (p0, c0) :: (p1, c1) :: post)
    (hs : SortedKeys g.m_keys) (h01 : p0 < p1)
    (hv0 : NormalizeValue g.m_domain v0 = p0) (hv1 : NormalizeValue g.m_domain v1 = p1) :
    GetColor g v0 = some c0 ∧ ((∀ k ∈ post, k.1 ≠ p1) → GetColor g v1 = some c1) := by
  rw [hk] at hs
  have hpre := (sorted_adjacent_bounds pre post (p0, c0) (p1, c1) hs).1
  have hpost := (sorted_adjacent_bounds pre post (p0, c0) (p1, c1) hs).2
  unfold NormalizeValue at hv0 hv1
  constructor
  · unfold GetColor
    rw [hv0, hk, scan_between p0 pre post p0 p1 c0 c1 hs le_rfl h01]
    simp [lerpColor_zero]
  · intro hne
    unfold GetColor
    rw [hv1, hk]
    have happ : pre ++ (p0, c0) :: (p1, c1) :: post = (pre ++ [(p0, c0)]) ++ (p1, c1) :: post := by
      simp
    rw [happ, scan_skip p1 none (pre ++ [(p0, c0)]) (p1, c1) post ?_ le_rfl]
    · cases post with
      | nil => simp [GetColor.scan]
      | cons k rest =>
        have hk1 : p1 < k.1 :=
          lt_of_le_of_ne (hpost k (List.mem_cons_self _ _))
            (fun h => hne k (List.mem_cons_self _ _) h.symm)
        simp [GetColor.scan, hk1, lerpColor_zero]
    · intro x hx
      rcases List.mem_append.mp hx with hx | hx
      · exact le_trans (hpre x hx) (le_of_lt h01)
      · rw [List.mem_singleton.mp hx]
        exact le_of_lt h01

/-- C2 (amended), at the default gradient of `main`: the adjacent keys `(1/3, Red)`,
`(2/3, Green)`, queried at the absolute values `100/3` and `200/3`. -/
theorem GetColor_at_adjacent_keys_witness :
    (defaultGradient 100 : Gradient ℚ).m_domain.2 ≠ (defaultGradient 100 : Gradient ℚ).m_domain.1 ∧
    SortedKeys (defaultGradient 100 : Gradient ℚ).m_keys ∧
    GetColor (defaultGradient 100 : Gradient ℚ) (100 / 3) = some Color.Red ∧
    GetColor (defaultGradient 100 : Gradient ℚ) (200 / 3) = some Color.Green :=
  have h := GetColor_at_adjacent_keys (defaultGradient 100 : Gradient ℚ)
    [(0, Color.White)] [(1, Color.Blue)] (1 / 3) (2 / 3) Color.Red Color.Green (100 / 3) (200 / 3)
    (by decide!) (by decide!) (by decide!) (by decide!) (by decide!) (by decide!)
  ⟨by decide!, by decide!, h.1, h.2 (by decide!)⟩

/-- C3, as stated, fails in the arithmetic of the program: on the gradient of `main` over
`[0, 100]` the keys `(0, White)` and `(p1, Red)` (with `p1` the stored position of `100/3`) are
adjacent, the queries 0 and 1 have normalized positions in `[0, p1)`, and `GetColor(1)` is
`(254, 247, 247, 254)` in `double`: its red channel 254 lies outside `[255, 255]`, and below the
red channel 255 of `GetColor(0)`.  And the rounded `t` can reach 1: over `[0, 1]` with the keys
`White` at `-2^53` and `Blue` at 1, the query `1/2` lies in `[p0, p1)` and has `t = 1`. -/
theorem GetColorFl_between_counterexample :
    mainGradient.m_domain = (0, 100) ∧
    mainGradient.m_keys
      = [] ++ ((0 : ℚ), Color.White) :: (6004799274095739 / 18014398509481984, Color.Red)
          :: [(6004799274095739 / 9007199254740992, Color.Green), (1, Color.Blue)] ∧
    SortedKeys mainGradient.m_keys ∧
    (0 : ℚ) ≤ NormalizeValueFl roundDouble mainGradient.m_domain 0 ∧
    NormalizeValueFl roundDouble mainGradient.m_domain 0
      ≤ NormalizeValueFl roundDouble mainGradient.m_domain 1 ∧
    NormalizeValueFl roundDouble mainGradient.m_domain 1 < 6004799274095739 / 18014398509481984 ∧
    GetColorFl roundDouble mainGradient 0 = some ⟨255, 255, 255, 255⟩ ∧
    GetColorFl roundDouble mainGradient 1 = some ⟨254, 247, 247, 254⟩ ∧
    (254 : ℕ) < min (Color.White.get Channel.r : ℕ) (Color.Red.get Channel.r : ℕ) ∧
    (SortedKeys farKeyGradient.m_keys ∧
      farKeyGradient.m_keys
        = [] ++ ((-9007199254740992 : ℚ), Color.White) :: ((1 : ℚ), Color.Blue) :: [] ∧
      (-9007199254740992 : ℚ) ≤ NormalizeValueFl roundDouble farKeyGradient.m_domain (1 / 2) ∧
      NormalizeValueFl roundDouble farKeyGradient.m_domain (1 / 2) < 1 ∧
      roundDouble (roundDouble (NormalizeValueFl roundDouble farKeyGradient.m_domain (1 / 2)
          - (-9007199254740992)) / roundDouble (1 - (-9007199254740992))) = 1) := by
  decide!

/-- C3 (amended): for a rounding that is monotone, exact on the integers up to 255 and within
`1/1024` on `[-512, 512]` (as `double` rounding is), in a sorted gradient with `high ≠ low`, for
adjacent keys `(p0, c0)`, `(p1, c1)` with `p0 < p1` whose difference does not exceed the largest
finite `double` and does not round to zero, and two queries whose normalized positions `u ≤ v` lie in `[p0, p1)`: `GetColor` returns for each channel
the truncation of the rounded `(1 - t)·c0.ch + c1.ch·t` with the rounded
`t = (v - p0)/(p1 - p0) ∈ [0, 1]`; the channel never wraps, lies between `min(c0.ch, c1.ch) - 1`
and `max(c0.ch, c1.ch)`, and is monotone in the query up to one unit in the direction from
`c0.ch` to `c1.ch`. -/
theorem GetColorFl_between_adjacent_keys (fl : K → K) (hfl : FaithfulRounding fl)
    (g : Gradient K) (pre post : List (GradientKey K))
    (p0 p1 : K) (c0 c1 : Color) (qu qv : K)
    (hd : g.m_domain.2 ≠ g.m_domain.1)
    (hk : g.m_keys = pre ++ (p0, c0) :: (p1, c1) :: post)
    (hs : SortedKeys g.m_keys) (h01 : p0 < p1) (hD : fl (p1 - p0) ≠ 0)
    (hfin : p1 - p0 ≤ ((maxDouble : ℚ) : K))
    (hu : p0 ≤ NormalizeValueFl fl g.m_domain qu)
    (huv : NormalizeValueFl fl g.m_domain qu ≤ NormalizeValueFl fl g.m_domain qv)
    (hv : NormalizeValueFl fl g.m_domain qv < p1) :
    0 ≤ fl (fl (NormalizeValueFl fl g.m_domain qv - p0) / fl (p1 - p0)) ∧
    fl (fl (NormalizeValueFl fl g.m_domain qv - p0) / fl (p1 - p0)) ≤ 1 ∧
    ∃ colU colV : Color, GetColorFl fl g qu = some colU ∧ GetColorFl fl g qv = some colV ∧
      ∀ ch : Channel,
        (((colV.get ch : Fin 256) : ℕ) : ℤ)
          = truncate (fl (fl (fl (1 - fl (fl (NormalizeValueFl fl g.m_domain qv - p0) / fl (p1 - p0)))
                  * (((c0.get ch : Fin 256) : ℕ) : K))
              + fl ((((c1.get ch : Fin 256) : ℕ) : K)
                  * fl (fl (NormalizeValueFl fl g.m_domain qv - p0) / fl (p1 - p0))))) ∧
        min ((c0.get ch : Fin 256) : ℕ) ((c1.get ch : Fin 256) : ℕ)
          ≤ ((colV.get ch : Fin 256) : ℕ) + 1 ∧
        ((colV.get ch : Fin 256) : ℕ) ≤ max ((c0.get ch : Fin 256) : ℕ) ((c1.get ch : Fin 256) : ℕ) ∧
        (((c0.get ch : Fin 256) : ℕ) ≤ ((c1.get ch : Fin 256) : ℕ) →
          ((colU.get ch : Fin 256) : ℕ) ≤ ((colV.get ch : Fin 256) : ℕ) + 1) ∧
        (((c1.get ch : Fin 256) : ℕ) ≤ ((c0.get ch : Fin 256) : ℕ) →
          ((colV.get ch : Fin 256) : ℕ) ≤ ((colU.get ch : Fin 256) : ℕ) + 1) := by
  rw [hk] at hs
  set nu := NormalizeValueFl fl g.m_domain qu with hnu
  set nv := NormalizeValueFl fl g.m_domain qv with hnv
  obtain ⟨htu0, htuv, htv1⟩ := interpolationParameter_bounds fl hfl p0 p1 nu nv hu huv hv hD
  refine ⟨le_trans htu0 htuv, htv1, lerpColorFl fl (fl (fl (nu - p0) / fl (p1 - p0))) c0 c1,
    lerpColorFl fl (fl (fl (nv - p0) / fl (p1 - p0))) c0 c1, ?_, ?_, ?_⟩
  · unfold GetColorFl
    rw [hk]
    exact scanFl_between fl nu pre post p0 p1 c0 c1 hs hu (lt_of_le_of_lt huv hv)
  · unfold GetColorFl
    rw [hk]
    exact scanFl_between fl nv pre post p0 p1 c0 c1 hs (le_trans hu huv) hv
  · intro ch
    rw [lerpColorFl_get, lerpColorFl_get]
    obtain ⟨h1, -, h3, h4⟩ :=
      lerpChannelFl_spec fl hfl (fl (fl (nv - p0) / fl (p1 - p0))) (le_trans htu0 htuv) htv1
        (c0.get ch) (c1.get ch)
    obtain ⟨h5, h6⟩ :=
      lerpChannelFl_mono fl hfl (fl (fl (nu - p0) / fl (p1 - p0)))
        (fl (fl (nv - p0) / fl (p1 - p0))) htu0 htuv htv1 (c0.get ch) (c1.get ch)
    exact ⟨h1, h3, h4, h5, h6⟩

/-- C3 (amended), in `double` on the gradient of `main` over `[0, 100]`: the queries 0 and 1
between the keys `(0, White)` and `(p1, Red)`; and `GetColor(50) = (127, 127, 0, 255)`,
`GetColor(1) = (254, 247, 247, 254)`. -/
theorem GetColorFl_between_adjacent_keys_witness :
    SortedKeys mainGradient.m_keys ∧
    GetColorFl roundDouble mainGradient 50 = some ⟨127, 127, 0, 255⟩ ∧
    GetColorFl roundDouble mainGradient 1 = some ⟨254, 247, 247, 254⟩ ∧
    ∃ colU colV : Color,
      GetColorFl roundDouble mainGradient 0 = some colU ∧
      GetColorFl roundDouble mainGradient 1 = some colV ∧
      ∀ ch : Channel,
        min (Color.White.get ch : ℕ) (Color.Red.get ch : ℕ) ≤ (colV.get ch : ℕ) + 1 ∧
        (colV.get ch : ℕ) ≤ max (Color.White.get ch : ℕ) (Color.Red.get ch : ℕ) ∧
        ((Color.White.get ch : ℕ) ≤ (Color.Red.get ch : ℕ) →
          (colU.get ch : ℕ) ≤ (colV.get ch : ℕ) + 1) ∧
        ((Color.Red.get ch : ℕ) ≤ (Color.White.get ch : ℕ) →
          (colV.get ch : ℕ) ≤ (colU.get ch : ℕ) + 1) :=
  have h := GetColorFl_between_adjacent_keys roundDouble roundDouble_faithful mainGradient
    [] [(6004799274095739 / 9007199254740992, Color.Green), (1, Color.Blue)]
    0 (6004799274095739 / 18014398509481984) Color.White Color.Red 0 1
    (by decide!) (by decide!) (by decide!) (by decide!) (by decide!) (by decide!) (by decide!)
    (by decide!) (by decide!)
  ⟨by decide!, by decide!, by decide!,
    h.2.2.elim fun colU hU => hU.elim fun colV hV =>
      ⟨colU, colV, hV.1, hV.2.1, fun ch => (hV.2.2 ch).2⟩⟩

/-- C4, as stated, fails for keys outside the domain: the sorted gradient over `[0, 100]` with the
keys `White` at `-100` and `Blue` at `200` returns neither at the ends of the domain. -/
theorem GetColor_domain_ends_counterexample :
    outsideKeyGradient.m_domain = (0, 100) ∧
    outsideKeyGradient.m_keys = [((-1 : ℚ), Color.White), ((2 : ℚ), Color.Blue)] ∧
    SortedKeys outsideKeyGradient.m_keys ∧
    GetColor outsideKeyGradient 0 = some ⟨170, 170, 255, 255⟩ ∧
    GetColor outsideKeyGradient 0 ≠ some Color.White ∧
    GetColor outsideKeyGradient 100 = some ⟨85, 85, 255, 255⟩ ∧
    GetColor outsideKeyGradient 100 ≠ some Color.Blue := by
  decide!

/-- C4 (amended): in a non-empty sorted gradient with `high ≠ low`, `GetColor(domain.low)` returns
exactly the first key's colour when the first key's normalized position is at least 0 and every
later key's is above 0, and `GetColor(domain.high)` returns exactly the last key's colour when the
last key's normalized position is at most 1. -/
theorem GetColor_domain_ends (g : Gradient K) (first : GradientKey K)
    (rest : List (GradientKey K))
    (hd : g.m_domain.2 ≠ g.m_domain.1) (hk : g.m_keys = first :: rest)
    (hs : SortedKeys g.m_keys) :
    ((0 ≤ first.1 ∧ ∀ k ∈ rest, 0 < k.1) → GetColor g g.m_domain.1 = some first.2) ∧
    (((first :: rest).getLast (List.cons_ne_nil first rest)).1 ≤ 1 →
      GetColor g g.m_domain.2
        = some ((first :: rest).getLast (List.cons_ne_nil first rest)).2) := by
  have hspan : g.m_domain.2 - g.m_domain.1 ≠ 0 := sub_ne_zero.mpr hd
  constructor
  · rintro ⟨h0, hrest⟩
    unfold GetColor
    rw [hk, sub_self, zero_div]
    rcases lt_or_eq_of_le h0 with hlt | heq
    · simp [GetColor.scan, hlt]
    · cases rest with
      | nil => simp [GetColor.scan, ← heq]
      | cons k ks =>
        have hk0 : 0 < k.1 := hrest k (List.mem_cons_self _ _)
        simp [GetColor.scan, ← heq, hk0, lerpColor_zero]
  · intro hlast
    unfold GetColor
    rw [hk, div_self hspan]
    rw [hk] at hs
    refine scan_all_le 1 (first :: rest) (List.cons_ne_nil first rest) fun x hx => ?_
    exact le_trans (sorted_le_getLast _ (List.cons_ne_nil first rest) hs x hx) hlast

/-- C4 (amended), at the default gradient of `main` over `[0, 100]`: `GetColor(0)` is white and
`GetColor(100)` is blue. -/
theorem GetColor_domain_ends_witness :
    (defaultGradient 100 : Gradient ℚ).m_domain = (0, 100) ∧
    SortedKeys (defaultGradient 100 : Gradient ℚ).m_keys ∧
    GetColor (defaultGradient 100 : Gradient ℚ) 0 = some Color.White ∧
    GetColor (defaultGradient 100 : Gradient ℚ) 100 = some Color.Blue :=
  have h := GetColor_domain_ends (defaultGradient 100 : Gradient ℚ) (0, Color.White)
    [(1 / 3, Color.Red), (2 / 3, Color.Green), (1, Color.Blue)]
    (by decide!) (by decide!) (by decide!)
  ⟨by decide!, by decide!, h.1 (by decide!), h.2 (by decide!)⟩

/-! ## Gradient: change of domain -/

end GradientTheorems

/-! ## Compute engine -/

section EngineTheorems

variable {K : Type} [LinearOrderedField K] [FloorRing K]

/-- C6, at the failing input: with the 16 workers of the pool and a buffer of 801 rows, the row
800 lies in no worker's range `[ySliceBegin, ySliceEnd)`; the ranges end at row 800. -/
theorem row_partition_misses_row :
    800 < 801 ∧
    (∀ k, k < s_NumThreads → ¬ inSlice 801 s_NumThreads k 800) ∧
    ySliceEnd 801 s_NumThreads (s_NumThreads - 1) = 800 := by
  decide

/-- C7: with `c = 0` and an iteration cap `M ≥ 1`, the loop of `DrawPixelFunction` stops with
`i = 0` for every start `z0` with `|z0|² ≥ 4` (that is `|z0| ≥ 2`), and for `z0 = 0` it never
breaks and ends with `i = M` and `z = 0`. -/
theorem escapeLoop_zero_constant (M : ℕ) (hM : 1 ≤ M) :
    (∀ z0 : complex K, 4 ≤ LengthSquared z0 →
      (escapeLoop ((0, 0) : complex K) M 0 z0).1 = 0) ∧
    escapeLoop ((0, 0) : complex K) M 0 (0, 0) = (M, (0, 0)) := by
  constructor
  · intro z0 hz
    obtain ⟨n, rfl⟩ : ∃ n, M = n + 1 := ⟨M - 1, by omega⟩
    have hsq : LengthSquared (ComplexModifier ((0, 0) : complex K) z0)
        = LengthSquared z0 * LengthSquared z0 := by
      simp only [LengthSquared, ComplexModifier]
      ring
    have h4 : (4 : K) ≤ LengthSquared (ComplexModifier ((0, 0) : complex K) z0) := by
      rw [hsq]
      nlinarith
    simp only [escapeLoop, h4, if_true]
  · rw [escapeLoop_origin]
    simp

/-- C7, at a concrete input: cap 5, start `(2, 0)` stops at `i = 0`, start `0` runs to `i = 5`. -/
theorem escapeLoop_zero_constant_witness :
    1 ≤ 5 ∧ (4 : ℚ) ≤ LengthSquared ((2, 0) : complex ℚ) ∧
    (escapeLoop ((0, 0) : complex ℚ) 5 0 (2, 0)).1 = 0 ∧
    escapeLoop ((0, 0) : complex ℚ) 5 0 (0, 0) = (5, (0, 0)) :=
  have h := escapeLoop_zero_constant (K := ℚ) 5 (by decide)
  ⟨by decide, by decide!, h.1 (2, 0) (by decide!), h.2⟩

/-- C10, at the failing input: after `ResizeRenderTexture(1200, 800)` the centre pixel
`(600, 400)` is started at `(1/2, -1/2)`, not at the origin. -/
theorem pixelStartPoint_centre_off_origin :
    pixelStartPoint (ResizeRenderTexture initialContext 1200 800) 600 400 = ((1 / 2 : ℚ), (-1 / 2 : ℚ)) ∧
    pixelStartPoint (ResizeRenderTexture initialContext 1200 800) 600 400 ≠ ((0 : ℚ), (0 : ℚ)) := by
  decide!

/-- C8: over the reals, with `std::sqrt` and `std::log2`.  For an iteration cap `M ≥ 1`, any
constant `c` and any pixel whose iterates `z1 .. zM` all stay inside the escape radius, and any
non-empty gradient over the domain `[0, M]` whose keys all have normalized position at most 1,
`DrawPixelFunction` hands the value `M` to `GetColor` and writes the four channels of the last
key's colour, with smoothing enabled as well as disabled. -/
theorem DrawPixelFunction_never_escaping (s_C : complex ℝ) (M : ℕ) (smoothing : Bool)
    (context : RenderContext ℝ) (x y : ℝ)
    (hM : 1 ≤ M)
    (hne : context.DrawGradient.m_keys ≠ [])
    (hdom : context.DrawGradient.m_domain = (0, (M : ℝ)))
    (hkeys : ∀ k ∈ context.DrawGradient.m_keys, k.1 ≤ 1)
    (hin : ∀ n, 1 ≤ n → n ≤ M →
      LengthSquared ((ComplexModifier s_C)^[n] (startPoint context x y)) < 4) :
    escapeLoop s_C M 0 (startPoint context x y)
      = (M, (ComplexModifier s_C)^[M] (startPoint context x y)) ∧
    gradientValue Real.sqrt (Real.logb 2) smoothing M
      ((ComplexModifier s_C)^[M] (startPoint context x y)) = (M : ℝ) ∧
    DrawPixelFunction Real.sqrt (Real.logb 2) ⟨s_C, M, smoothing⟩ x y context
      = some [(context.DrawGradient.m_keys.getLast hne).2.r,
              (context.DrawGradient.m_keys.getLast hne).2.g,
              (context.DrawGradient.m_keys.getLast hne).2.b,
              (context.DrawGradient.m_keys.getLast hne).2.a] := by
  have hloop : escapeLoop s_C M 0 (startPoint context x y)
      = (M, (ComplexModifier s_C)^[M] (startPoint context x y)) := by
    rw [escapeLoop_no_escape s_C M 0 _ hin, Nat.zero_add]
  have hval : gradientValue Real.sqrt (Real.logb 2) smoothing M
      ((ComplexModifier s_C)^[M] (startPoint context x y)) = (M : ℝ) := by
    cases smoothing with
    | false => simp [gradientValue]
    | true =>
      have := smoothing_term_inside _ (hin M hM le_rfl)
      simp [gradientValue, this]
  have hM0 : (M : ℝ) ≠ 0 := Nat.cast_ne_zero.mpr (by omega)
  have hcol : GetColor context.DrawGradient (M : ℝ)
      = some (context.DrawGradient.m_keys.getLast hne).2 := by
    unfold GetColor
    rw [hdom]
    simp only [sub_zero, div_self hM0]
    exact scan_all_le 1 _ hne hkeys
  refine ⟨hloop, hval, ?_⟩
  simp only [DrawPixelFunction, hloop, hval, hcol, Option.map_some']

/-- C8, at a concrete input: a 2×2 buffer, `c = 0`, cap 1, the pixel started at the origin, and
the gradient over `[0, 1]` with the single key `(1, Blue)`: blue is written, with and without
smoothing. -/
theorem DrawPixelFunction_never_escaping_witness :
    DrawPixelFunction Real.sqrt (Real.logb 2) ⟨((0 : ℝ), (0 : ℝ)), 1, true⟩ 1 1
        ⟨View.reset 0 0 2 2, 2, 2, ⟨[((1 : ℝ), Color.Blue)], (0, ((1 : ℕ) : ℝ))⟩⟩
      = some [0, 0, 255, 255] ∧
    DrawPixelFunction Real.sqrt (Real.logb 2) ⟨((0 : ℝ), (0 : ℝ)), 1, false⟩ 1 1
        ⟨View.reset 0 0 2 2, 2, 2, ⟨[((1 : ℝ), Color.Blue)], (0, ((1 : ℕ) : ℝ))⟩⟩
      = some [0, 0, 255, 255] :=
  ⟨(DrawPixelFunction_never_escaping ((0 : ℝ), (0 : ℝ)) 1 true
      ⟨View.reset 0 0 2 2, 2, 2, ⟨[((1 : ℝ), Color.Blue)], (0, ((1 : ℕ) : ℝ))⟩⟩ 1 1
      le_rfl (by simp) rfl (by simp)
      (by
        intro n h1 h2
        obtain rfl : n = 1 := by omega
        simp [startPoint, ComplexModifier, LengthSquared])).2.2,
   (DrawPixelFunction_never_escaping ((0 : ℝ), (0 : ℝ)) 1 false
      ⟨View.reset 0 0 2 2, 2, 2, ⟨[((1 : ℝ), Color.Blue)], (0, ((1 : ℕ) : ℝ))⟩⟩ 1 1
      le_rfl (by simp) rfl (by simp)
      (by
        intro n h1 h2
        obtain rfl : n = 1 := by omega
        simp [startPoint, ComplexModifier, LengthSquared])).2.2⟩

end EngineTheorems

/-! ## Frame barrier -/

/-- C9, at the failing schedule: from the start of a cycle of the 16-worker pool, the schedule in
which worker 0 takes two `ready` permits is enabled at every step and ends with `main` having
completed its 16 acquires of `finished`, while worker 1 has completed no `UpdateRenderContext`
and worker 0 has completed two. -/
theorem barrier_permit_stolen :
    (runSchedule s_NumThreads (cycleStart s_NumThreads) stolenPermitSchedule).map
        (fun s => (s.numThreadsFinished, s.s_ThreadsReady, s.s_ThreadsFinished, s.updates))
      = some (16, 0, 0, [2, 0, 1, 1, 1, 1, 1, 1, 1, 1, 1, 1, 1, 1, 1, 1]) := by
  decide

end FractalRenderer
